import Mathlib

/-! Verification of the hybrid-retrieval service (boomi-test-service).

This file gives a shallow embedding of the pure cores of the service:

* `reciprocal_rank_fusion` — src/app/utils/rrf.py
* `_create_sparse_vector` (with a full MD5 model) — src/app/services/qdrant_client.py
* `hybrid_search` — src/app/services/search.py (with the asyncio behaviour it relies on)
* `with_timeout` / `search_with_summary` — src/app/utils/circuit_breaker.py, src/app/main.py
* `search_dense` / `search_sparse` / `delete_by_tenant` — src/app/services/qdrant_client.py,
  over a Vector Store model derived from the spec's collaborator contract.

Python floats are modelled as exact rationals (`ℚ`), Python ints as `ℤ`/`ℕ`,
dictionaries as insertion-ordered association lists, and `sorted` as the stable
insertion sort `List.insertionSort` from Mathlib.
-/

/-- Metadata payloads (Python `Dict[str, Any]`) are modelled as ordered string
maps; none of the verified claims inspects metadata values beyond equality. -/
def Metadata := List (String × String)
deriving DecidableEq, Inhabited

/-- A raw hit dictionary, as consumed by `reciprocal_rank_fusion`
(src/app/utils/rrf.py).  Fields are `Option`s because the Python code reads
them with `dict.get`, which yields `None` for absent keys. -/
structure RHit where
  document_id : Option String
  content : Option String
  metadata : Option Metadata
  score : Option ℚ
deriving DecidableEq

/-- A fused output dictionary built by `reciprocal_rank_fusion`:
`{"document_id": ..., "content": ..., "metadata": ..., "score": ...}`. -/
structure FusedHit where
  document_id : String
  content : String
  metadata : Metadata
  score : ℚ
deriving DecidableEq

/-- The truthiness test `if not doc_id: continue` at src/app/utils/rrf.py:28-30:
a hit is skipped when its `document_id` is absent, `None`, or the empty string.
`toId` returns `some d` exactly when the hit survives the test. -/
def toId (h : RHit) : Option String :=
  match h.document_id with
  | none => none
  | some s => if s = "" then none else some s

/-- The keys of the running `doc_scores` dictionary, in insertion order. -/
def ids (acc : List FusedHit) : List String := acc.map FusedHit.document_id

/-- One iteration of the inner loop of `reciprocal_rank_fusion`
(src/app/utils/rrf.py:27-45): skip falsy ids, bump the score of a document
already present, or append a fresh entry holding the first occurrence's
content and metadata together with its first score contribution.
`rank` is the 1-based position from `enumerate(results, start=1)`. -/
def addHit (k : ℤ) (acc : List FusedHit) (rank : ℕ) (h : RHit) : List FusedHit :=
  match toId h with
  | none => acc
  | some d =>
    if d ∈ ids acc then
      acc.map (fun e => if e.document_id = d then { e with score := e.score + 1 / ((k : ℚ) + rank) } else e)
    else
      acc ++ [⟨d, h.content.getD "", h.metadata.getD [], 1 / ((k : ℚ) + rank)⟩]

/-- The inner loop `for rank, result in enumerate(results, start=1)`, with the
current rank threaded explicitly. -/
def addListFrom (k : ℤ) (rank : ℕ) (acc : List FusedHit) : List RHit → List FusedHit
  | [] => acc
  | h :: t => addListFrom k (rank + 1) (addHit k acc rank h) t

/-- The outer loop `for results in results_list` of `reciprocal_rank_fusion`;
the accumulator models the pair of insertion-ordered dictionaries
`doc_scores` / `doc_data` (scores and first-occurrence data share keys). -/
def rrfAccum (k : ℤ) (results_list : List (List RHit)) : List FusedHit :=
  results_list.foldl (fun acc results => addListFrom k 1 acc results) []

/-- The comparison performed by
`sorted(doc_scores.items(), key=lambda x: x[1], reverse=True)`
(src/app/utils/rrf.py:48-52): `a` may precede `b` iff `a`'s score is at least
`b`'s.  Python's `sorted` is stable, which `List.insertionSort` with this
relation reproduces exactly. -/
def rrfRel (a b : FusedHit) : Prop := b.score ≤ a.score

instance : DecidableRel rrfRel := fun a b => inferInstanceAs (Decidable (b.score ≤ a.score))

instance : IsTotal FusedHit rrfRel := ⟨fun a b => le_total b.score a.score⟩

instance : IsTrans FusedHit rrfRel := ⟨fun _ _ _ hab hbc => le_trans hbc hab⟩

/-- Model of `reciprocal_rank_fusion` (src/app/utils/rrf.py:5-61).  The accumulation
pass builds the score/data dictionaries; the final pass sorts by score
descending (stably) and emits one output dictionary per distinct document id.
In this embedding each accumulator entry already carries its document's data
and running score, so the sorted accumulator is the merged result list. -/
def reciprocal_rank_fusion (results_list : List (List RHit)) (k : ℤ) : List FusedHit :=
  List.insertionSort rrfRel (rrfAccum k results_list)

/-- Spec-side score formula, written from the spec's words: each hit at
1-based position `rank` of a list contributes `1 / (k + rank)` to the score of
its (truthy) document id.  `specScoreFrom k d rank l` is the contribution of
the part of one list starting at position `rank` to document `d`. -/
def specScoreFrom (k : ℤ) (d : String) (rank : ℕ) : List RHit → ℚ
  | [] => 0
  | h :: t => (if toId h = some d then 1 / ((k : ℚ) + rank) else 0) + specScoreFrom k d (rank + 1) t

/-- Spec-side fused score of document `d`: contributions from all lists are
summed per document id. -/
def specScore (k : ℤ) (d : String) (results_list : List (List RHit)) : ℚ :=
  (results_list.map (specScoreFrom k d 1)).sum

/-- The score recorded for key `d` in the running dictionary (0 if absent):
the score of the first entry keyed `d`. -/
def scoreOf : List FusedHit → String → ℚ
  | [], _ => 0
  | e :: t, d => if e.document_id = d then e.score else scoreOf t d

/-- The truthy document ids of one ranked list, in order. -/
def listIds (l : List RHit) : List String := l.filterMap toId

/-- All truthy document ids across the concatenated input lists, in order of
appearance; first-appearance positions are indices into this list. -/
def allIds (results_list : List (List RHit)) : List String :=
  (results_list.map listIds).flatten

/-- Keep-first deduplication: the distinct elements of `xs` in order of first
appearance (the key order of a Python dict filled by iterating `xs`). -/
def dedupFirst {α : Type} [DecidableEq α] (xs : List α) : List α :=
  xs.foldl (fun acc d => if d ∈ acc then acc else acc ++ [d]) []

/-- The fresh entries that one ranked list contributes when none of its truthy
document ids has been seen before: one entry per truthy hit, in list order,
scored `1 / (k + rank)`. -/
def freshEntries (k : ℤ) (rank : ℕ) : List RHit → List FusedHit
  | [] => []
  | h :: t =>
    match toId h with
    | none => freshEntries k (rank + 1) t
    | some d => ⟨d, h.content.getD "", h.metadata.getD [], 1 / ((k : ℚ) + rank)⟩ :: freshEntries k (rank + 1) t


/-! Sparse vectorization (src/app/services/qdrant_client.py:55-75)

`_create_sparse_vector` lower-cases the text, splits it on whitespace, counts
token frequencies in an insertion-ordered dictionary, and emits one
`(index, value)` pair per distinct token, where the index is the first 8 hex
digits of the token's MD5 digest taken modulo 10000, and the value is the
token's frequency (a Python float, modelled as `ℚ`).  MD5 is modelled in
full so that the vectorizer is a closed function of the input text. -/

/-- Per-round left-rotation amounts of MD5 (RFC 1321). -/
def md5ShiftTable : List ℕ :=
  [7, 12, 17, 22, 7, 12, 17, 22, 7, 12, 17, 22, 7, 12, 17, 22,
   5, 9, 14, 20, 5, 9, 14, 20, 5, 9, 14, 20, 5, 9, 14, 20,
   4, 11, 16, 23, 4, 11, 16, 23, 4, 11, 16, 23, 4, 11, 16, 23,
   6, 10, 15, 21, 6, 10, 15, 21, 6, 10, 15, 21, 6, 10, 15, 21]

/-- Per-round additive constants of MD5 (RFC 1321), `floor(2^32 * |sin(i+1)|)`. -/
def md5SineTable : List ℕ :=
  [0xd76aa478, 0xe8c7b756, 0x242070db, 0xc1bdceee,
   0xf57c0faf, 0x4787c62a, 0xa8304613, 0xfd469501,
   0x698098d8, 0x8b44f7af, 0xffff5bb1, 0x895cd7be,
   0x6b901122, 0xfd987193, 0xa679438e, 0x49b40821,
   0xf61e2562, 0xc040b340, 0x265e5a51, 0xe9b6c7aa,
   0xd62f105d, 0x02441453, 0xd8a1e681, 0xe7d3fbc8,
   0x21e1cde6, 0xc33707d6, 0xf4d50d87, 0x455a14ed,
   0xa9e3e905, 0xfcefa3f8, 0x676f02d9, 0x8d2a4c8a,
   0xfffa3942, 0x8771f681, 0x6d9d6122, 0xfde5380c,
   0xa4beea44, 0x4bdecfa9, 0xf6bb4b60, 0xbebfbc70,
   0x289b7ec6, 0xeaa127fa, 0xd4ef3085, 0x04881d05,
   0xd9d4d039, 0xe6db99e5, 0x1fa27cf8, 0xc4ac5665,
   0xf4292244, 0x432aff97, 0xab9423a7, 0xfc93a039,
   0x655b59c3, 0x8f0ccc92, 0xffeff47d, 0x85845dd1,
   0x6fa87e4f, 0xfe2ce6e0, 0xa3014314, 0x4e0811a1,
   0xf7537e82, 0xbd3af235, 0x2ad7d2bb, 0xeb86d391]

/-- 32-bit left rotation on naturals below `2 ^ 32`. -/
def rotl32 (x s : ℕ) : ℕ := ((x <<< s) ||| (x >>> (32 - s))) % 2 ^ 32

/-- Word `g` of a chunk: the `g`-th little-endian 32-bit word of a 64-byte chunk. -/
def md5WordAt (chunk : List ℕ) (g : ℕ) : ℕ :=
  chunk.getD (4 * g) 0 + 256 * chunk.getD (4 * g + 1) 0 +
    65536 * chunk.getD (4 * g + 2) 0 + 16777216 * chunk.getD (4 * g + 3) 0

/-- One of the 64 MD5 rounds, acting on the state `(A, B, C, D)`. -/
def md5Round (M : ℕ → ℕ) (st : ℕ × ℕ × ℕ × ℕ) (i : ℕ) : ℕ × ℕ × ℕ × ℕ :=
  let A := st.1
  let B := st.2.1
  let C := st.2.2.1
  let D := st.2.2.2
  let f :=
    if i < 16 then (B &&& C) ||| ((B ^^^ 0xffffffff) &&& D)
    else if i < 32 then (D &&& B) ||| ((D ^^^ 0xffffffff) &&& C)
    else if i < 48 then B ^^^ C ^^^ D
    else C ^^^ (B ||| (D ^^^ 0xffffffff))
  let g :=
    if i < 16 then i
    else if i < 32 then (5 * i + 1) % 16
    else if i < 48 then (3 * i + 5) % 16
    else (7 * i) % 16
  let tmp := (f + A + md5SineTable.getD i 0 + M g) % 2 ^ 32
  (D, (B + rotl32 tmp (md5ShiftTable.getD i 0)) % 2 ^ 32, B, C)

/-- MD5 compression of one 64-byte chunk into the running state. -/
def md5Compress (st0 : ℕ × ℕ × ℕ × ℕ) (chunk : List ℕ) : ℕ × ℕ × ℕ × ℕ :=
  let st := (List.range 64).foldl (md5Round (md5WordAt chunk)) st0
  ((st0.1 + st.1) % 2 ^ 32, (st0.2.1 + st.2.1) % 2 ^ 32,
   (st0.2.2.1 + st.2.2.1) % 2 ^ 32, (st0.2.2.2 + st.2.2.2) % 2 ^ 32)

/-- First `n` little-endian bytes of `v`. -/
def toLEBytes : ℕ → ℕ → List ℕ
  | 0, _ => []
  | n + 1, v => v % 256 :: toLEBytes n (v / 256)

/-- MD5 padding: a `0x80` byte, zeros to 56 mod 64, then the 64-bit
little-endian bit length. -/
def md5Pad (msg : List ℕ) : List ℕ :=
  let len := msg.length
  let padLen := (55 + 64 - len % 64) % 64
  msg ++ 0x80 :: (List.replicate padLen 0 ++ toLEBytes 8 (len * 8 % 2 ^ 64))

/-- Split a byte list into 64-byte chunks (fuel-based structural recursion;
the fuel `l.length` always suffices). -/
def md5ChunksGo : ℕ → List ℕ → List (List ℕ)
  | 0, _ => []
  | _, [] => []
  | fuel + 1, l => l.take 64 :: md5ChunksGo fuel (l.drop 64)

/-- The 64-byte chunks of a padded message. -/
def md5Chunks (l : List ℕ) : List (List ℕ) := md5ChunksGo l.length l

/-- The 16-byte MD5 digest of a byte string. -/
def md5DigestBytes (msg : List ℕ) : List ℕ :=
  let st := (md5Chunks (md5Pad msg)).foldl md5Compress
    (0x67452301, 0xefcdab89, 0x98badcfe, 0x10325476)
  toLEBytes 4 st.1 ++ toLEBytes 4 st.2.1 ++ toLEBytes 4 st.2.2.1 ++ toLEBytes 4 st.2.2.2

/-- The value of the first 8 hex digits of a digest, i.e. Python's
`int(hash_obj.hexdigest()[:8], 16)`: the first four digest bytes read as a
big-endian number. -/
def hexPrefixValue (bs : List ℕ) : ℕ :=
  bs.getD 0 0 * 16777216 + bs.getD 1 0 * 65536 + bs.getD 2 0 * 256 + bs.getD 3 0

/-- UTF-8 encoding of one character (Python `word.encode('utf-8')`). -/
def utf8Bytes (c : Char) : List ℕ :=
  let n := c.toNat
  if n < 128 then [n]
  else if n < 2048 then [192 ||| (n >>> 6), 128 ||| (n &&& 63)]
  else if n < 65536 then
    [224 ||| (n >>> 12), 128 ||| ((n >>> 6) &&& 63), 128 ||| (n &&& 63)]
  else
    [240 ||| (n >>> 18), 128 ||| ((n >>> 12) &&& 63), 128 ||| ((n >>> 6) &&& 63),
     128 ||| (n &&& 63)]

/-- UTF-8 encoding of a token. -/
def utf8Encode (w : List Char) : List ℕ := w.flatMap utf8Bytes

/-- The bucket index of a token
(src/app/services/qdrant_client.py:69-71):
`int(hashlib.md5(word.encode('utf-8')).hexdigest()[:8], 16) % 10000`. -/
def md5BucketIndex (w : List Char) : ℕ :=
  hexPrefixValue (md5DigestBytes (utf8Encode w)) % 10000

/-- Python `str.split()` with no separator: split on runs of whitespace and
drop empty fragments.  `cur` holds the current in-progress token reversed. -/
def pySplitGo : List Char → List Char → List (List Char)
  | [], cur => if cur = [] then [] else [cur.reverse]
  | c :: cs, cur =>
    if c.isWhitespace then
      if cur = [] then pySplitGo cs [] else cur.reverse :: pySplitGo cs []
    else pySplitGo cs (c :: cur)

/-- Python `text.split()` on a character list. -/
def pySplit (s : List Char) : List (List Char) := pySplitGo s []

/-- The insertion-ordered frequency dictionary built by
`word_freq[word] = word_freq.get(word, 0) + 1`
(src/app/services/qdrant_client.py:60-63). -/
def wordFreq (ws : List (List Char)) : List (List Char × ℕ) :=
  ws.foldl
    (fun acc w =>
      if w ∈ acc.map Prod.fst then
        acc.map (fun p => if p.1 = w then (p.1, p.2 + 1) else p)
      else acc ++ [(w, 1)])
    []

/-- The Qdrant `SparseVector(indices=..., values=...)` payload. -/
structure PySparseVector where
  indices : List ℕ
  values : List ℚ
deriving DecidableEq

/-- Model of `QdrantService._create_sparse_vector` (src/app/services/qdrant_client.py:55-75):
lower-case, split on whitespace, count frequencies, then emit one
`(md5-bucket-index, frequency)` pair per distinct token in first-appearance
order.  Note that the code appends a pair per distinct token without merging
pairs whose indices collide.  Python's `str.lower` is modelled by
`Char.toLower` (the tokens of interest are ASCII). -/
def _create_sparse_vector (text : String) : PySparseVector :=
  let wf := wordFreq (pySplit (text.data.map Char.toLower))
  { indices := wf.map (fun p => md5BucketIndex p.1),
    values := wf.map (fun p => (p.2 : ℚ)) }


/-! Hybrid search (src/app/services/search.py:23-72)

`hybrid_search` starts the dense and sparse searches as coroutines, gathers
them under `asyncio.wait_for(..., timeout=settings.search_timeout)`, fuses the
two result lists with RRF and truncates to `top_k`.  The model abstracts the
environment of one call: the two result lists the sub-searches would produce,
and whether the shared deadline elapses before the gather completes.

The timeout branch (lines 54-58) is modelled together with the asyncio
behaviour it relies on: `asyncio.gather(dense_task, sparse_task)` wraps each
coroutine object in a Task that consumes it, so the later `await dense_task`
on line 57 awaits a coroutine object that has already been awaited, which
raises `RuntimeError` (`cannot reuse already awaited coroutine` when the dense
task already finished, `coroutine is being awaited already` otherwise).  It
never yields the dense results. -/

/-- Errors that can escape the modelled `hybrid_search` call. -/
inductive PyError where
  /-- Error `RuntimeError` from re-awaiting the coroutine consumed by `asyncio.gather`. -/
  | coroutineReuse
deriving DecidableEq

/-- The environment of one `hybrid_search` call. -/
structure HybridEnv where
  /-- Results the dense sub-search produces (line 46). -/
  denseResults : List RHit
  /-- Results the sparse sub-search produces (line 47). -/
  sparseResults : List RHit
  /-- The shared deadline elapses before both sub-searches return (line 54). -/
  gatherTimesOut : Bool
  /-- The dense sub-search has already completed when the deadline elapses. -/
  denseCompleted : Bool

/-- Model of `SearchService.hybrid_search` (src/app/services/search.py:23-72), as a
function of its call environment.  On the no-timeout path the two lists are
fused with `reciprocal_rank_fusion` and truncated to `top_k`; on the timeout
path the code re-awaits the already-consumed dense coroutine and the call
raises `RuntimeError` whether or not the dense search had completed. -/
def hybrid_search (env : HybridEnv) (k : ℤ) (top_k : ℕ) :
    Except PyError (List FusedHit) :=
  if env.gatherTimesOut then
    Except.error PyError.coroutineReuse
  else
    Except.ok ((reciprocal_rank_fusion [env.denseResults, env.sparseResults] k).take top_k)

/-! Summarization stage (src/app/main.py:171-245, src/app/utils/circuit_breaker.py:48-67) -/

/-- The outcome of awaiting `llm_service.generate_summary(...)` under a
timeout: it returns a summary, exceeds the deadline, or raises a
provider-side exception carrying a description `e` (its `str(e)`). -/
inductive LLMOutcome where
  | ok (text : String)
  | timeout
  | error (msg : String)
deriving DecidableEq

/-- Model of `with_timeout` (src/app/utils/circuit_breaker.py:48-67): return the
coroutine's result, substitute `default` on `asyncio.TimeoutError`, and
re-raise any other exception. -/
def with_timeout (outcome : LLMOutcome) (default : String) : Except String String :=
  match outcome with
  | LLMOutcome.ok t => Except.ok t
  | LLMOutcome.timeout => Except.ok default
  | LLMOutcome.error e => Except.error e

/-- The observable response of `search_with_summary`: the returned result set,
the summary text, and whether the Text Generation Provider was invoked. -/
structure SummaryResponseM where
  results : List FusedHit
  summary : String
  llm_called : Bool
deriving DecidableEq

/-- Model of `search_with_summary` (src/app/main.py:190-239), as a function of the
fused retrieval results and the provider outcome.  Empty retrieval results
short-circuit to a fixed message before the LLM service is even fetched
(lines 190-199).  Otherwise the summary is produced under `with_timeout` with
a fixed timed-out default, and a provider-raised exception `e` is caught by
the generic handler (lines 213-215), which substitutes a message embedding
`str(e)`.  (The `except CircuitBreakerException` arm on lines 211-212 is dead
code in this path: `generate_summary` is not decorated with
`circuit_breaker`, and `with_timeout` converts `asyncio.TimeoutError` into
the default instead of raising.)  The result set is passed through
unchanged in every case. -/
def search_with_summary (results : List FusedHit) (llm : LLMOutcome) : SummaryResponseM :=
  if results.isEmpty then
    { results := [], summary := "No results found for your query.", llm_called := false }
  else
    let summary :=
      match with_timeout llm "Summary generation timed out. Please try again." with
      | Except.ok s => s
      | Except.error e =>
        "Summary generation failed: " ++ e ++ ". Search results are still available below."
    { results := results, summary := summary, llm_called := true }

/-! Vector Store model (src/app/services/qdrant_client.py:77-246)

The Qdrant client library is an external collaborator; the spec's Vector
Store contract ("persists vectors keyed by tenant and returns
nearest-neighbor matches", searches honour the passed filter, scroll is
paginated in point-id order) supplies its semantics.  The filter values the
service passes are taken verbatim from the source. -/

/-- A stored point: Qdrant `PointStruct` with its payload
(src/app/services/qdrant_client.py:97-109).  `pid` models the `uuid4` point
id as an opaque number. -/
structure StoredPoint where
  pid : ℕ
  tenant_id : String
  document_id : String
  content : String
  metadata : Metadata
  dense : List ℚ
  sparse : PySparseVector
deriving DecidableEq

/-- Qdrant `FieldCondition(key=..., match=MatchValue(value=...))`. -/
structure FieldCondition where
  key : String
  value : String
deriving DecidableEq

/-- Qdrant `Filter(must=[...])`. -/
structure PointFilter where
  must : List FieldCondition
deriving DecidableEq

/-- Payload lookup on a stored point, for filter evaluation. -/
def payloadGet (p : StoredPoint) (key : String) : Option String :=
  if key = "tenant_id" then some p.tenant_id
  else if key = "document_id" then some p.document_id
  else if key = "content" then some p.content
  else none

/-- Modelled from the spec: a point matches a `Filter` iff it satisfies every
`must` condition. -/
def matchesFilter (f : PointFilter) (p : StoredPoint) : Bool :=
  f.must.all (fun c => decide (payloadGet p c.key = some c.value))

/-- Modelled from the spec: `client.search` returns the stored points that
match the query filter, ordered by the engine's similarity score for the
query (abstracted as an arbitrary ranking function `rank`), truncated to
`limit`.  It never returns a point the filter excludes. -/
def clientSearch (rank : StoredPoint → ℚ) (store : List StoredPoint)
    (f : PointFilter) (limit : ℕ) : List StoredPoint :=
  (List.insertionSort (fun p q => rank q ≤ rank p) (store.filter (matchesFilter f))).take limit

/-- The hit dictionary built from a scored point
(src/app/services/qdrant_client.py:148-156 and 191-199). -/
def pointToHit (rank : StoredPoint → ℚ) (p : StoredPoint) : RHit :=
  { document_id := some p.document_id, content := some p.content,
    metadata := some p.metadata, score := some (rank p) }

/-- The mandatory tenant filter passed to every search
(src/app/services/qdrant_client.py:137-144 and 180-187). -/
def tenantFilter (tenant_id : String) : PointFilter :=
  { must := [{ key := "tenant_id", value := tenant_id }] }

/-- Model of `QdrantService.search_dense` (src/app/services/qdrant_client.py:117-156):
dense nearest-neighbor search over the collection, always under the caller's
tenant filter.  The dense similarity of the query vector against each point
is abstracted as `rank`. -/
def search_dense (rank : StoredPoint → ℚ) (store : List StoredPoint)
    (tenant_id : String) (top_k : ℕ) : List RHit :=
  (clientSearch rank store (tenantFilter tenant_id) top_k).map (pointToHit rank)

/-- Model of `QdrantService.search_sparse` (src/app/services/qdrant_client.py:158-199):
the query text is vectorized with `_create_sparse_vector` and searched under
the caller's tenant filter; the engine's sparse similarity against each point
is abstracted as `rank`, a function of the query's sparse vector. -/
def search_sparse (rank : PySparseVector → StoredPoint → ℚ) (store : List StoredPoint)
    (tenant_id : String) (query_text : String) (top_k : ℕ) : List RHit :=
  let sv := _create_sparse_vector query_text
  (clientSearch (rank sv) store (tenantFilter tenant_id) top_k).map (pointToHit (rank sv))

/-- Model of `QdrantService.insert_document` (src/app/services/qdrant_client.py:77-115):
derive the sparse vector from the content and upsert one point carrying the
tenant in its payload. -/
def insert_document (store : List StoredPoint) (pid : ℕ) (tenant_id document_id content : String)
    (metadata : Metadata) (dense : List ℚ) : List StoredPoint :=
  store ++ [{ pid := pid, tenant_id := tenant_id, document_id := document_id,
              content := content, metadata := metadata, dense := dense,
              sparse := _create_sparse_vector content }]

/-- Point-id order, the order in which the store model scrolls. -/
def pidLE (p q : StoredPoint) : Prop := p.pid ≤ q.pid

instance : DecidableRel pidLE := fun p q => inferInstanceAs (Decidable (p.pid ≤ q.pid))

instance : IsTotal StoredPoint pidLE := ⟨fun p q => le_total p.pid q.pid⟩

instance : IsTrans StoredPoint pidLE := ⟨fun _ _ _ hpq hqr => le_trans hpq hqr⟩

/-- Modelled from the spec: one `client.scroll` page — the matching points
with id at or past the cursor, in id order, up to `limit` of them, together
with the next cursor (`None` when the page exhausts the matches). -/
def scrollPage (store : List StoredPoint) (f : PointFilter) (limit : ℕ)
    (offset : Option ℕ) : List StoredPoint × Option ℕ :=
  let ms := List.insertionSort pidLE (store.filter (matchesFilter f))
  let ms' := match offset with
    | none => ms
    | some o => ms.filter (fun p => decide (o ≤ p.pid))
  (ms'.take limit, (ms'.drop limit).head?.map StoredPoint.pid)

/-- Modelled from the spec: `client.delete` removes the points whose ids are
listed. -/
def deletePoints (store : List StoredPoint) (pids : List ℕ) : List StoredPoint :=
  store.filter (fun p => decide (p.pid ∉ pids))

/-- The scroll-and-delete loop of `QdrantService.delete_by_tenant`
(src/app/services/qdrant_client.py:211-243), with structural fuel (any fuel
beyond the store size is enough, since every non-final iteration deletes at
least one point).  Returns the store after deletion and the running count. -/
def deleteLoop : ℕ → List StoredPoint → String → Option ℕ → ℕ →
    List StoredPoint × ℕ
  | 0, store, _, _, count => (store, count)
  | fuel + 1, store, tenant_id, offset, count =>
    let page := scrollPage store (tenantFilter tenant_id) 100 offset
    if page.1.isEmpty then (store, count)
    else
      let store' := deletePoints store (page.1.map StoredPoint.pid)
      let count' := count + page.1.length
      match page.2 with
      | none => (store', count')
      | some o => deleteLoop fuel store' tenant_id (some o) count'

/-- Model of `QdrantService.delete_by_tenant` (src/app/services/qdrant_client.py:201-246):
scroll through the tenant's points 100 at a time, deleting each page, and
return the number of points deleted. -/
def delete_by_tenant (store : List StoredPoint) (tenant_id : String) :
    List StoredPoint × ℕ :=
  deleteLoop (store.length + 1) store tenant_id none 0

/-! Reference checks against Python

The MD5 model agrees with `hashlib.md5` on reference inputs, and the
splitter agrees with `str.split()`. -/

theorem md5BucketIndex_ref_m : md5BucketIndex "m".data = 5009 := by decide

theorem md5BucketIndex_ref_x : md5BucketIndex "x".data = 5009 := by decide

theorem md5BucketIndex_ref_hello : md5BucketIndex "hello".data = 7354 := by decide

theorem md5BucketIndex_ref_empty : md5BucketIndex [] = 6393 := by decide

theorem pySplit_ref : pySplit "  a bc  d ".data = ["a".data, "bc".data, "d".data] := by decide

theorem rrf_nil : reciprocal_rank_fusion [] 60 = [] := rfl

/-! Lemmas about the RRF accumulation pass -/

theorem toId_ne_empty {h : RHit} {d : String} (hd : toId h = some d) : d ≠ "" := by
  unfold toId at hd
  split at hd
  · exact Option.noConfusion hd
  · split at hd
    · exact Option.noConfusion hd
    · rename_i hs
      cases hd
      exact hs

theorem addHit_of_none {k : ℤ} {acc : List FusedHit} {rank : ℕ} {h : RHit}
    (hh : toId h = none) : addHit k acc rank h = acc := by
  unfold addHit; rw [hh]

theorem ids_addHit (k : ℤ) (acc : List FusedHit) (rank : ℕ) (h : RHit) :
    ids (addHit k acc rank h) =
      (match toId h with
       | none => ids acc
       | some d => if d ∈ ids acc then ids acc else ids acc ++ [d]) := by
  unfold addHit
  cases hti : toId h with
  | none => rfl
  | some d =>
    dsimp only
    by_cases hd : d ∈ ids acc
    · rw [if_pos hd, if_pos hd]
      show List.map _ _ = _
      rw [List.map_map]
      exact List.map_congr_left (fun e _ => by dsimp only [Function.comp]; split <;> rfl)
    · rw [if_neg hd, if_neg hd]
      show List.map _ _ = _
      rw [List.map_append]
      rfl

theorem mem_ids_addHit {k : ℤ} {acc : List FusedHit} {rank : ℕ} {h : RHit} {d : String} :
    d ∈ ids (addHit k acc rank h) ↔ d ∈ ids acc ∨ toId h = some d := by
  rw [ids_addHit]
  cases hti : toId h with
  | none => simp
  | some d' =>
    dsimp only
    by_cases hd : d' ∈ ids acc
    · rw [if_pos hd]
      constructor
      · exact Or.inl
      · rintro (hm | hm)
        · exact hm
        · obtain rfl : d' = d := Option.some_injective _ hm
          exact hd
    · rw [if_neg hd]
      constructor
      · intro hm
        rcases List.mem_append.mp hm with hm | hm
        · exact Or.inl hm
        · rcases List.mem_singleton.mp hm with rfl
          exact Or.inr rfl
      · rintro (hm | hm)
        · exact List.mem_append.mpr (Or.inl hm)
        · obtain rfl : d' = d := Option.some_injective _ hm
          exact List.mem_append.mpr (Or.inr (List.mem_singleton.mpr rfl))

theorem nodup_ids_addHit {k : ℤ} {acc : List FusedHit} {rank : ℕ} {h : RHit}
    (hnd : (ids acc).Nodup) : (ids (addHit k acc rank h)).Nodup := by
  rw [ids_addHit]
  cases toId h with
  | none => exact hnd
  | some d =>
    dsimp only
    by_cases hd : d ∈ ids acc
    · rw [if_pos hd]; exact hnd
    · rw [if_neg hd]
      exact List.nodup_append.mpr ⟨hnd, List.nodup_singleton d,
        fun a ha hb => hd (by rcases List.mem_singleton.mp hb with rfl; exact ha)⟩


theorem mem_ids_iff {acc : List FusedHit} {d : String} :
    d ∈ ids acc ↔ ∃ e ∈ acc, e.document_id = d := by
  simp [ids]

theorem scoreOf_of_not_mem : ∀ {acc : List FusedHit} {d : String}, d ∉ ids acc → scoreOf acc d = 0 := by
  intro acc
  induction acc with
  | nil => intro d _; rfl
  | cons e t ih =>
    intro d hd
    have he : ¬ e.document_id = d :=
      fun hc => hd (mem_ids_iff.mpr ⟨e, List.mem_cons_self e t, hc⟩)
    have ht : d ∉ ids t := fun hc => by
      rcases mem_ids_iff.mp hc with ⟨e', he', hde⟩
      exact hd (mem_ids_iff.mpr ⟨e', List.mem_cons_of_mem e he', hde⟩)
    rw [scoreOf, if_neg he, ih ht]

theorem scoreOf_map_bump : ∀ {acc : List FusedHit} {d : String} {s : ℚ}, d ∈ ids acc →
    scoreOf (acc.map (fun e => if e.document_id = d then { e with score := e.score + s } else e)) d =
      scoreOf acc d + s := by
  intro acc
  induction acc with
  | nil => intro d s hd; exact absurd hd (by simp [ids])
  | cons e t ih =>
    intro d s hd
    rw [List.map_cons]
    by_cases he : e.document_id = d
    · rw [if_pos he, scoreOf, scoreOf, if_pos he, if_pos he]
    · have ht : d ∈ ids t := by
        rcases mem_ids_iff.mp hd with ⟨e', he', hde⟩
        rcases List.mem_cons.mp he' with rfl | he''
        · exact absurd hde he
        · exact mem_ids_iff.mpr ⟨e', he'', hde⟩
      rw [if_neg he, scoreOf, scoreOf, if_neg he, if_neg he, ih ht]

theorem scoreOf_map_bump_ne : ∀ {acc : List FusedHit} {d d' : String} {s : ℚ}, d' ≠ d →
    scoreOf (acc.map (fun e => if e.document_id = d' then { e with score := e.score + s } else e)) d =
      scoreOf acc d := by
  intro acc
  induction acc with
  | nil => intro d d' s _; rfl
  | cons e t ih =>
    intro d d' s hdd
    rw [List.map_cons]
    by_cases he : e.document_id = d'
    · have hed : ¬ e.document_id = d := fun hc => hdd (he ▸ hc ▸ rfl)
      rw [if_pos he, scoreOf, scoreOf, if_neg hed, if_neg hed, ih hdd]
    · rw [if_neg he, scoreOf, scoreOf, ih hdd]

theorem scoreOf_append_singleton (x : FusedHit) :
    ∀ (acc : List FusedHit) (d : String),
      scoreOf (acc ++ [x]) d =
        if d ∈ ids acc then scoreOf acc d else if x.document_id = d then x.score else 0 := by
  intro acc
  induction acc with
  | nil =>
    intro d
    rw [if_neg (by simp [ids]), List.nil_append, scoreOf, scoreOf]
  | cons e t ih =>
    intro d
    rw [List.cons_append, scoreOf, ih]
    by_cases he : e.document_id = d
    · rw [if_pos he, if_pos (mem_ids_iff.mpr ⟨e, List.mem_cons_self e t, he⟩), scoreOf, if_pos he]
    · rw [if_neg he]
      by_cases hdt : d ∈ ids t
      · have hdet : d ∈ ids (e :: t) := by
          rcases mem_ids_iff.mp hdt with ⟨e', he', hde⟩
          exact mem_ids_iff.mpr ⟨e', List.mem_cons_of_mem e he', hde⟩
        rw [if_pos hdt, if_pos hdet, scoreOf, if_neg he]
      · have hdet : d ∉ ids (e :: t) := fun hc => by
          rcases mem_ids_iff.mp hc with ⟨e', he', hde⟩
          rcases List.mem_cons.mp he' with rfl | he''
          · exact he hde
          · exact hdt (mem_ids_iff.mpr ⟨e', he'', hde⟩)
        rw [if_neg hdt, if_neg hdet]

theorem scoreOf_addHit (k : ℤ) (acc : List FusedHit) (rank : ℕ) (h : RHit) (d : String) :
    scoreOf (addHit k acc rank h) d =
      scoreOf acc d + (if toId h = some d then 1 / ((k : ℚ) + rank) else 0) := by
  cases hti : toId h with
  | none => rw [addHit_of_none hti, if_neg (by simp), add_zero]
  | some d' =>
    unfold addHit
    rw [hti]
    dsimp only
    by_cases hdd : d' = d
    · subst hdd
      have hsome : (some d' = some d') := rfl
      rw [if_pos hsome]
      by_cases hd : d' ∈ ids acc
      · rw [if_pos hd, scoreOf_map_bump hd]
      · rw [if_neg hd, scoreOf_append_singleton, if_neg hd, scoreOf_of_not_mem hd, zero_add,
          if_pos rfl]
    · have hsome : ¬ ((some d' : Option String) = some d) := by simpa using hdd
      rw [if_neg hsome, add_zero]
      by_cases hd : d' ∈ ids acc
      · rw [if_pos hd, scoreOf_map_bump_ne hdd]
      · rw [if_neg hd, scoreOf_append_singleton]
        by_cases hdm : d ∈ ids acc
        · rw [if_pos hdm]
        · have hxd : ¬ (FusedHit.document_id
              ⟨d', h.content.getD "", h.metadata.getD [], 1 / ((k : ℚ) + rank)⟩ = d) := hdd
          rw [if_neg hdm, if_neg hxd, scoreOf_of_not_mem hdm]

theorem scoreOf_addListFrom (k : ℤ) (l : List RHit) :
    ∀ (rank : ℕ) (acc : List FusedHit) (d : String),
      scoreOf (addListFrom k rank acc l) d = scoreOf acc d + specScoreFrom k d rank l := by
  induction l with
  | nil => intro rank acc d; rw [addListFrom, specScoreFrom, add_zero]
  | cons h t ih =>
    intro rank acc d
    rw [addListFrom, specScoreFrom, ih, scoreOf_addHit, add_assoc]

theorem scoreOf_rrfAccum (k : ℤ) (results_list : List (List RHit)) (d : String) :
    scoreOf (rrfAccum k results_list) d = specScore k d results_list := by
  suffices hgen : ∀ (acc : List FusedHit),
      scoreOf (results_list.foldl (fun acc results => addListFrom k 1 acc results) acc) d =
        scoreOf acc d + specScore k d results_list by
    have hnil := hgen []
    rw [scoreOf] at hnil
    rw [rrfAccum, hnil, zero_add]
  induction results_list with
  | nil => intro acc; rw [List.foldl_nil, specScore, List.map_nil, List.sum_nil, add_zero]
  | cons l ls ih =>
    intro acc
    rw [List.foldl_cons, ih, scoreOf_addListFrom, specScore, specScore, List.map_cons,
      List.sum_cons]
    ring

theorem mem_ids_addListFrom (k : ℤ) (l : List RHit) :
    ∀ (rank : ℕ) (acc : List FusedHit) (d : String),
      d ∈ ids (addListFrom k rank acc l) ↔ d ∈ ids acc ∨ ∃ h ∈ l, toId h = some d := by
  induction l with
  | nil => intro rank acc d; simp [addListFrom]
  | cons h t ih =>
    intro rank acc d
    rw [addListFrom, ih, mem_ids_addHit]
    constructor
    · rintro ((hm | hm) | ⟨h', hh', hm⟩)
      · exact Or.inl hm
      · exact Or.inr ⟨h, List.mem_cons_self h t, hm⟩
      · exact Or.inr ⟨h', List.mem_cons_of_mem h hh', hm⟩
    · rintro (hm | ⟨h', hh', hm⟩)
      · exact Or.inl (Or.inl hm)
      · rcases List.mem_cons.mp hh' with rfl | hh''
        · exact Or.inl (Or.inr hm)
        · exact Or.inr ⟨h', hh'', hm⟩

theorem mem_ids_rrfAccum (k : ℤ) (results_list : List (List RHit)) (d : String) :
    d ∈ ids (rrfAccum k results_list) ↔ ∃ l ∈ results_list, ∃ h ∈ l, toId h = some d := by
  suffices hgen : ∀ (acc : List FusedHit),
      d ∈ ids (results_list.foldl (fun acc results => addListFrom k 1 acc results) acc) ↔
        d ∈ ids acc ∨ ∃ l ∈ results_list, ∃ h ∈ l, toId h = some d by
    rw [rrfAccum, hgen []]
    simp [ids]
  induction results_list with
  | nil => intro acc; simp
  | cons l ls ih =>
    intro acc
    rw [List.foldl_cons, ih, mem_ids_addListFrom]
    constructor
    · rintro ((hm | ⟨h, hh, hm⟩) | ⟨l', hl', h', hh', hm⟩)
      · exact Or.inl hm
      · exact Or.inr ⟨l, List.mem_cons_self l ls, h, hh, hm⟩
      · exact Or.inr ⟨l', List.mem_cons_of_mem l hl', h', hh', hm⟩
    · rintro (hm | ⟨l', hl', h', hh', hm⟩)
      · exact Or.inl (Or.inl hm)
      · rcases List.mem_cons.mp hl' with rfl | hl''
        · exact Or.inl (Or.inr ⟨h', hh', hm⟩)
        · exact Or.inr ⟨l', hl'', h', hh', hm⟩

theorem nodup_ids_addListFrom (k : ℤ) (l : List RHit) :
    ∀ (rank : ℕ) (acc : List FusedHit), (ids acc).Nodup →
      (ids (addListFrom k rank acc l)).Nodup := by
  induction l with
  | nil => intro rank acc hnd; exact hnd
  | cons h t ih =>
    intro rank acc hnd
    exact ih (rank + 1) (addHit k acc rank h) (nodup_ids_addHit hnd)

theorem nodup_ids_rrfAccum (k : ℤ) (results_list : List (List RHit)) :
    (ids (rrfAccum k results_list)).Nodup := by
  suffices hgen : ∀ (acc : List FusedHit), (ids acc).Nodup →
      (ids (results_list.foldl (fun acc results => addListFrom k 1 acc results) acc)).Nodup by
    exact hgen [] (by simp [ids])
  induction results_list with
  | nil => intro acc hnd; exact hnd
  | cons l ls ih =>
    intro acc hnd
    exact ih (addListFrom k 1 acc l) (nodup_ids_addListFrom k l 1 acc hnd)

theorem score_eq_scoreOf : ∀ {acc : List FusedHit}, (ids acc).Nodup →
    ∀ {e : FusedHit}, e ∈ acc → e.score = scoreOf acc e.document_id := by
  intro acc
  induction acc with
  | nil => intro _ e he; exact absurd he (List.not_mem_nil e)
  | cons a t ih =>
    intro hnd e he
    have hnd' : (ids t).Nodup := by
      rw [ids, List.map_cons] at hnd
      exact hnd.of_cons
    rcases List.mem_cons.mp he with rfl | he'
    · rw [scoreOf, if_pos rfl]
    · have hne : ¬ a.document_id = e.document_id := by
        intro hc
        rw [ids, List.map_cons] at hnd
        exact (List.nodup_cons.mp hnd).1 (hc ▸ List.mem_map_of_mem _ he')
      rw [scoreOf, if_neg hne]
      exact ih hnd' he'

/-! Transfer to the sorted output -/

theorem rrf_perm (results_list : List (List RHit)) (k : ℤ) :
    (reciprocal_rank_fusion results_list k).Perm (rrfAccum k results_list) :=
  List.perm_insertionSort rrfRel (rrfAccum k results_list)

theorem mem_rrf {results_list : List (List RHit)} {k : ℤ} {e : FusedHit} :
    e ∈ reciprocal_rank_fusion results_list k ↔ e ∈ rrfAccum k results_list :=
  List.mem_insertionSort rrfRel

theorem rrf_sorted (results_list : List (List RHit)) (k : ℤ) :
    (reciprocal_rank_fusion results_list k).Sorted rrfRel :=
  List.sorted_insertionSort rrfRel (rrfAccum k results_list)

theorem rrf_ids_nodup (results_list : List (List RHit)) (k : ℤ) :
    ((reciprocal_rank_fusion results_list k).map FusedHit.document_id).Nodup :=
  (((rrf_perm results_list k).map FusedHit.document_id).nodup_iff).mpr
    (nodup_ids_rrfAccum k results_list)

theorem rrf_score_eq_specScore {results_list : List (List RHit)} {k : ℤ} {e : FusedHit}
    (he : e ∈ reciprocal_rank_fusion results_list k) :
    e.score = specScore k e.document_id results_list := by
  have he' : e ∈ rrfAccum k results_list := mem_rrf.mp he
  rw [score_eq_scoreOf (nodup_ids_rrfAccum k results_list) he',
    scoreOf_rrfAccum]

theorem mem_ids_rrf {results_list : List (List RHit)} {k : ℤ} {d : String} :
    d ∈ (reciprocal_rank_fusion results_list k).map FusedHit.document_id ↔
      ∃ l ∈ results_list, ∃ h ∈ l, toId h = some d := by
  rw [← mem_ids_rrfAccum k results_list d]
  constructor
  · intro hm
    rcases List.mem_map.mp hm with ⟨e, he, rfl⟩
    exact List.mem_map_of_mem _ (mem_rrf.mp he)
  · intro hm
    rcases List.mem_map.mp hm with ⟨e, he, rfl⟩
    exact List.mem_map_of_mem _ (mem_rrf.mpr he)

/-! Stability of the sort

Python's `sorted` is stable, so entries with equal scores keep their
dictionary insertion order, which is first-appearance order across the
concatenated input lists.  The generic lemma: `insertionSort` preserves any
pairwise relation `T` that holds vacuously across strictly-ordered pairs. -/

theorem pairwise_orderedInsert_of {α : Type} {r : α → α → Prop} [DecidableRel r]
    {T : α → α → Prop} (hvac : ∀ x y, ¬ r y x → T x y) (a : α) :
    ∀ (l : List α), l.Pairwise T → (∀ b ∈ l, T a b) →
      (List.orderedInsert r a l).Pairwise T := by
  intro l
  induction l with
  | nil => intro _ _; exact List.pairwise_singleton T a
  | cons b t ih =>
    intro hl ha
    rw [List.orderedInsert]
    by_cases hr : r a b
    · rw [if_pos hr]
      exact List.pairwise_cons.mpr ⟨ha, hl⟩
    · rw [if_neg hr]
      refine List.pairwise_cons.mpr ⟨?_, ?_⟩
      · intro y hy
        rcases (List.mem_orderedInsert r).mp hy with rfl | hyt
        · exact hvac b y hr
        · exact (List.pairwise_cons.mp hl).1 y hyt
      · exact ih (List.pairwise_cons.mp hl).2
          (fun y hy => ha y (List.mem_cons_of_mem b hy))

theorem pairwise_insertionSort_of {α : Type} {r : α → α → Prop} [DecidableRel r]
    {T : α → α → Prop} (hvac : ∀ x y, ¬ r y x → T x y) :
    ∀ (l : List α), l.Pairwise T → (List.insertionSort r l).Pairwise T := by
  intro l
  induction l with
  | nil => intro _; exact List.Pairwise.nil
  | cons a t ih =>
    intro hl
    rw [List.insertionSort]
    exact pairwise_orderedInsert_of hvac a _ (ih (List.pairwise_cons.mp hl).2)
      (fun b hb => (List.pairwise_cons.mp hl).1 b ((List.mem_insertionSort r).mp hb))

/-! The accumulator's keys are in first-appearance order -/

theorem ids_addListFrom (k : ℤ) (l : List RHit) :
    ∀ (rank : ℕ) (acc : List FusedHit),
      ids (addListFrom k rank acc l) =
        (listIds l).foldl (fun a d => if d ∈ a then a else a ++ [d]) (ids acc) := by
  induction l with
  | nil => intro rank acc; simp [addListFrom, listIds]
  | cons h t ih =>
    intro rank acc
    rw [addListFrom, ih]
    cases hti : toId h with
    | none =>
      rw [addHit_of_none hti]
      simp [listIds, List.filterMap_cons, hti]
    | some d =>
      have hids : ids (addHit k acc rank h) =
          if d ∈ ids acc then ids acc else ids acc ++ [d] := by
        rw [ids_addHit, hti]
      rw [hids]
      simp [listIds, List.filterMap_cons, hti]

theorem ids_rrfAccum (k : ℤ) (results_list : List (List RHit)) :
    ids (rrfAccum k results_list) = dedupFirst (allIds results_list) := by
  suffices hgen : ∀ (acc : List FusedHit),
      ids (results_list.foldl (fun acc results => addListFrom k 1 acc results) acc) =
        (allIds results_list).foldl (fun a d => if d ∈ a then a else a ++ [d]) (ids acc) by
    rw [rrfAccum, hgen []]
    rfl
  induction results_list with
  | nil => intro acc; rfl
  | cons l ls ih =>
    intro acc
    rw [List.foldl_cons, ih, ids_addListFrom]
    have : allIds (l :: ls) = listIds l ++ allIds ls := by
      simp [allIds]
    rw [this, List.foldl_append]

theorem mem_foldl_dedupStep {α : Type} [DecidableEq α] :
    ∀ (xs acc : List α) (d : α),
      d ∈ xs.foldl (fun a x => if x ∈ a then a else a ++ [x]) acc ↔ d ∈ acc ∨ d ∈ xs := by
  intro xs
  induction xs with
  | nil => intro acc d; simp
  | cons x t ih =>
    intro acc d
    rw [List.foldl_cons, ih]
    by_cases hx : x ∈ acc
    · rw [if_pos hx]
      constructor
      · rintro (hm | hm)
        · exact Or.inl hm
        · exact Or.inr (List.mem_cons_of_mem x hm)
      · rintro (hm | hm)
        · exact Or.inl hm
        · rcases List.mem_cons.mp hm with rfl | hm'
          · exact Or.inl hx
          · exact Or.inr hm'
    · rw [if_neg hx]
      constructor
      · rintro (hm | hm)
        · rcases List.mem_append.mp hm with hm' | hm'
          · exact Or.inl hm'
          · rcases List.mem_singleton.mp hm' with rfl
            exact Or.inr (List.mem_cons_self d t)
        · exact Or.inr (List.mem_cons_of_mem x hm)
      · rintro (hm | hm)
        · exact Or.inl (List.mem_append.mpr (Or.inl hm))
        · rcases List.mem_cons.mp hm with rfl | hm'
          · exact Or.inl (List.mem_append.mpr (Or.inr (List.mem_singleton.mpr rfl)))
          · exact Or.inr hm'

theorem mem_dedupFirst {α : Type} [DecidableEq α] {xs : List α} {d : α} :
    d ∈ dedupFirst xs ↔ d ∈ xs := by
  rw [dedupFirst, mem_foldl_dedupStep]
  simp

theorem pairwise_indexOf_foldl_dedupStep {α : Type} [DecidableEq α] :
    ∀ (ys pre acc : List α),
      (∀ a, a ∈ acc ↔ a ∈ pre) →
      acc.Pairwise (fun a b => (pre ++ ys).indexOf a < (pre ++ ys).indexOf b) →
      (ys.foldl (fun a x => if x ∈ a then a else a ++ [x]) acc).Pairwise
        (fun a b => (pre ++ ys).indexOf a < (pre ++ ys).indexOf b) := by
  intro ys
  induction ys with
  | nil => intro pre acc _ hp; exact hp
  | cons y t ih =>
    intro pre acc hmem hp
    rw [List.foldl_cons]
    have hsplit : pre ++ y :: t = (pre ++ [y]) ++ t := by
      rw [List.append_assoc, List.singleton_append]
    rw [hsplit] at hp ⊢
    by_cases hy : y ∈ acc
    · rw [if_pos hy]
      apply ih (pre ++ [y]) acc
      · intro a
        rw [hmem a, List.mem_append, List.mem_singleton]
        constructor
        · exact Or.inl
        · rintro (hm | rfl)
          · exact hm
          · exact (hmem a).mp hy
      · exact hp
    · rw [if_neg hy]
      apply ih (pre ++ [y]) (acc ++ [y])
      · intro a
        rw [List.mem_append, List.mem_append, List.mem_singleton, hmem a]
      · rw [List.pairwise_append]
        refine ⟨hp, List.pairwise_singleton _ y, ?_⟩
        intro a ha b hb
        rcases List.mem_singleton.mp hb with rfl
        have hapre : a ∈ pre := (hmem a).mp ha
        have hbpre : b ∉ pre := fun hc => hy ((hmem b).mpr hc)
        have hidxa : ((pre ++ [b]) ++ t).indexOf a = pre.indexOf a := by
          rw [List.indexOf_append_of_mem (List.mem_append.mpr (Or.inl hapre)),
            List.indexOf_append_of_mem hapre]
        have hidxb : ((pre ++ [b]) ++ t).indexOf b = pre.length := by
          rw [List.indexOf_append_of_mem
            (List.mem_append.mpr (Or.inr (List.mem_singleton.mpr rfl)))]
          rw [List.indexOf_append_of_not_mem hbpre]
          simp
        rw [hidxa, hidxb]
        exact List.indexOf_lt_length.mpr hapre

theorem pairwise_indexOf_dedupFirst {α : Type} [DecidableEq α] (xs : List α) :
    (dedupFirst xs).Pairwise (fun a b => xs.indexOf a < xs.indexOf b) := by
  have h := pairwise_indexOf_foldl_dedupStep xs [] []
    (by intro a; simp) List.Pairwise.nil
  rw [List.nil_append] at h
  exact h

theorem rrfAccum_pairwise_firstIdx (k : ℤ) (results_list : List (List RHit)) :
    (rrfAccum k results_list).Pairwise
      (fun a b => (allIds results_list).indexOf a.document_id <
        (allIds results_list).indexOf b.document_id) := by
  have h1 : (ids (rrfAccum k results_list)).Pairwise
      (fun a b => (allIds results_list).indexOf a < (allIds results_list).indexOf b) := by
    rw [ids_rrfAccum]
    exact pairwise_indexOf_dedupFirst (allIds results_list)
  rw [ids, List.pairwise_map] at h1
  exact h1

/-- Equal-score entries of the fused output appear in first-appearance order
across the concatenated input lists: the sort is stable and the dictionary
iterates its keys in insertion order. -/
theorem rrf_tie_stable (results_list : List (List RHit)) (k : ℤ) :
    (reciprocal_rank_fusion results_list k).Pairwise
      (fun a b => a.score = b.score →
        (allIds results_list).indexOf a.document_id <
          (allIds results_list).indexOf b.document_id) := by
  apply pairwise_insertionSort_of
    (r := rrfRel)
    (T := fun a b => a.score = b.score →
      (allIds results_list).indexOf a.document_id <
        (allIds results_list).indexOf b.document_id)
  · intro x y hr heq
    exact absurd (le_of_eq heq) hr
  · refine List.Pairwise.imp ?_ (rrfAccum_pairwise_firstIdx k results_list)
    intro a b hab _
    exact hab

/-! Fusing a single list -/

theorem addListFrom_fresh (k : ℤ) :
    ∀ (l : List RHit) (rank : ℕ) (acc : List FusedHit),
      (∀ d, d ∈ ids acc → d ∉ listIds l) →
      (listIds l).Nodup →
      addListFrom k rank acc l = acc ++ freshEntries k rank l := by
  intro l
  induction l with
  | nil => intro rank acc _ _; rw [addListFrom, freshEntries, List.append_nil]
  | cons h t ih =>
    intro rank acc hdisj hnd
    rw [addListFrom, freshEntries]
    cases hti : toId h with
    | none =>
      rw [addHit_of_none hti]
      apply ih (rank + 1) acc
      · intro d hd
        have := hdisj d hd
        rw [listIds, List.filterMap_cons, hti] at this
        exact this
      · rw [listIds, List.filterMap_cons, hti] at hnd
        exact hnd
    | some d =>
      have hlt : listIds (h :: t) = d :: listIds t := by
        rw [listIds, List.filterMap_cons, hti]
        rfl
      have hdn : d ∉ ids acc := fun hc =>
        hdisj d hc (hlt ▸ List.mem_cons_self d (listIds t))
      unfold addHit
      rw [hti]
      dsimp only
      rw [if_neg hdn]
      have hc1 : ∀ d' ∈ ids (acc ++
          [(⟨d, h.content.getD "", h.metadata.getD [], 1 / ((k : ℚ) + rank)⟩ : FusedHit)]),
          d' ∉ listIds t := by
        intro d' hd'
        rw [ids, List.map_append] at hd'
        rcases List.mem_append.mp hd' with hd'' | hd''
        · intro hc
          exact hdisj d' hd'' (hlt ▸ List.mem_cons_of_mem d hc)
        · rcases List.mem_singleton.mp hd'' with rfl
          rw [hlt] at hnd
          exact (List.nodup_cons.mp hnd).1
      have hc2 : (listIds t).Nodup := by
        rw [hlt] at hnd
        exact (List.nodup_cons.mp hnd).2
      have hrec := ih (rank + 1)
        (acc ++ [(⟨d, h.content.getD "", h.metadata.getD [], 1 / ((k : ℚ) + rank)⟩ : FusedHit)])
        hc1 hc2
      rw [hrec, List.append_assoc, List.singleton_append]

theorem rrfAccum_single (k : ℤ) (l : List RHit) (hnd : (listIds l).Nodup) :
    rrfAccum k [l] = freshEntries k 1 l := by
  show addListFrom k 1 [] l = freshEntries k 1 l
  rw [addListFrom_fresh k l 1 [] (by intro d hd; exact absurd hd (by simp [ids])) hnd,
    List.nil_append]

theorem mem_freshEntries (k : ℤ) :
    ∀ {l : List RHit} {rank : ℕ} {e : FusedHit}, e ∈ freshEntries k rank l →
      ∃ j, rank ≤ j ∧ e.score = 1 / ((k : ℚ) + j) := by
  intro l
  induction l with
  | nil => intro rank e he; exact absurd he (List.not_mem_nil e)
  | cons h t ih =>
    intro rank e he
    rw [freshEntries] at he
    cases hti : toId h with
    | none =>
      rw [hti] at he
      rcases ih he with ⟨j, hj, hs⟩
      exact ⟨j, le_trans (Nat.le_succ rank) hj, hs⟩
    | some d =>
      rw [hti] at he
      rcases List.mem_cons.mp he with rfl | he'
      · exact ⟨rank, le_refl rank, rfl⟩
      · rcases ih he' with ⟨j, hj, hs⟩
        exact ⟨j, le_trans (Nat.le_succ rank) hj, hs⟩

theorem freshEntries_strict_sorted (k : ℤ) (hk : 1 ≤ k) :
    ∀ (l : List RHit) (rank : ℕ), 1 ≤ rank →
      (freshEntries k rank l).Pairwise (fun a b => b.score < a.score) := by
  intro l
  induction l with
  | nil => intro rank _; exact List.Pairwise.nil
  | cons h t ih =>
    intro rank hrank
    rw [freshEntries]
    cases hti : toId h with
    | none => exact ih (rank + 1) (le_trans hrank (Nat.le_succ rank))
    | some d =>
      refine List.pairwise_cons.mpr ⟨?_, ih (rank + 1) (le_trans hrank (Nat.le_succ rank))⟩
      intro e he
      rcases mem_freshEntries k he with ⟨j, hj, hs⟩
      rw [hs]
      dsimp only
      have hkr : (0 : ℚ) < (k : ℚ) + rank := by
        have h1 : (1 : ℚ) ≤ (k : ℚ) := by exact_mod_cast hk
        have h2 : (1 : ℚ) ≤ (rank : ℚ) := by exact_mod_cast hrank
        linarith
      have hkj : ((k : ℚ) + rank) < ((k : ℚ) + j) := by
        have : (rank : ℚ) < (j : ℚ) := by exact_mod_cast Nat.lt_of_succ_le hj
        linarith
      exact one_div_lt_one_div_of_lt hkr hkj

theorem freshEntries_ids (k : ℤ) :
    ∀ (l : List RHit) (rank : ℕ),
      (freshEntries k rank l).map FusedHit.document_id = listIds l := by
  intro l
  induction l with
  | nil => intro rank; rfl
  | cons h t ih =>
    intro rank
    rw [freshEntries, listIds, List.filterMap_cons]
    cases hti : toId h with
    | none =>
      dsimp only
      exact ih (rank + 1)
    | some d =>
      dsimp only
      rw [List.map_cons, ih (rank + 1)]
      rfl

/-! Falsy hits contribute nothing -/

theorem addListFrom_falsy_congr (k : ℤ) {bad other : RHit}
    (hbad : toId bad = none) (hother : toId other = none) :
    ∀ (pre : List RHit) (post : List RHit) (rank : ℕ) (acc : List FusedHit),
      addListFrom k rank acc (pre ++ bad :: post) =
        addListFrom k rank acc (pre ++ other :: post) := by
  intro pre
  induction pre with
  | nil =>
    intro post rank acc
    rw [List.nil_append, List.nil_append, addListFrom, addListFrom,
      addHit_of_none hbad, addHit_of_none hother]
  | cons h t ih =>
    intro post rank acc
    rw [List.cons_append, List.cons_append, addListFrom, addListFrom, ih]

theorem rrfAccum_falsy_congr (k : ℤ) {bad other : RHit}
    (hbad : toId bad = none) (hother : toId other = none)
    (ls1 ls2 : List (List RHit)) (pre post : List RHit) :
    rrfAccum k (ls1 ++ (pre ++ bad :: post) :: ls2) =
      rrfAccum k (ls1 ++ (pre ++ other :: post) :: ls2) := by
  suffices hgen : ∀ (acc : List FusedHit),
      (ls1 ++ (pre ++ bad :: post) :: ls2).foldl
          (fun acc results => addListFrom k 1 acc results) acc =
        (ls1 ++ (pre ++ other :: post) :: ls2).foldl
          (fun acc results => addListFrom k 1 acc results) acc by
    exact hgen []
  induction ls1 with
  | nil =>
    intro acc
    rw [List.nil_append, List.nil_append, List.foldl_cons, List.foldl_cons,
      addListFrom_falsy_congr k hbad hother pre post 1 acc]
  | cons l t ih =>
    intro acc
    rw [List.cons_append, List.cons_append, List.foldl_cons, List.foldl_cons, ih]

/-! Claim theorems for reciprocal_rank_fusion -/

/-- C2: for every sequence of ranked input lists and every positive `k`,
`reciprocal_rank_fusion` assigns each output document a fused score equal to
the sum, over every list and every 1-based position at which that document's
id occurs, of `1 / (k + position)`; and for the inputs `[[A]], [[A]]` with
`k = 60` the fused score of `A` is exactly `2 / 61` (which in particular is
within tolerance `1e-6` of `2 / 61`). -/
theorem C2_rrf_score_formula (results_list : List (List RHit)) (k : ℤ) (hk : 1 ≤ k) :
    (∀ e ∈ reciprocal_rank_fusion results_list k,
      e.score = specScore k e.document_id results_list) ∧
    (∃ e ∈ reciprocal_rank_fusion
        [[⟨some "A", some "alpha", some [], some 1⟩],
         [⟨some "A", some "alpha", some [], some 1⟩]] 60,
      e.document_id = "A" ∧ e.score = 2 / 61) := by
  constructor
  · intro e he
    exact rrf_score_eq_specScore he
  · have hmem : "A" ∈ (reciprocal_rank_fusion
        [[⟨some "A", some "alpha", some [], some 1⟩],
         [⟨some "A", some "alpha", some [], some 1⟩]] 60).map FusedHit.document_id := by
      apply mem_ids_rrf.mpr
      refine ⟨[⟨some "A", some "alpha", some [], some 1⟩], by simp,
        ⟨some "A", some "alpha", some [], some 1⟩, by simp, ?_⟩
      simp [toId]
    rcases List.mem_map.mp hmem with ⟨e, he, hid⟩
    refine ⟨e, he, hid, ?_⟩
    have hs := rrf_score_eq_specScore he
    rw [hid] at hs
    rw [hs]
    have hne : ¬ ("A" : String) = "" := by decide
    simp only [specScore, specScoreFrom, toId, List.map_cons, List.map_nil, List.sum_cons,
      List.sum_nil, hne]
    norm_num

theorem C2_rrf_score_formula_witness :
    ((1 : ℤ) ≤ 60) ∧
    ((∀ e ∈ reciprocal_rank_fusion [] 60, e.score = specScore 60 e.document_id []) ∧
     (∃ e ∈ reciprocal_rank_fusion
        [[⟨some "A", some "alpha", some [], some 1⟩],
         [⟨some "A", some "alpha", some [], some 1⟩]] 60,
      e.document_id = "A" ∧ e.score = 2 / 61)) :=
  ⟨by decide, C2_rrf_score_formula [] 60 (by decide)⟩

/-- C4 (amended): for every sequence of ranked input lists, the fused output
contains every document id that occurs with a truthy id in some input list
exactly once (no document is dropped and none is duplicated), including all
four documents of two disjoint length-2 lists; and the output is ordered by
fused score descending (non-increasing — ties between distinct documents are
possible, so the order is not strictly descending). -/
theorem C4_rrf_unique_complete_sorted (results_list : List (List RHit)) (k : ℤ) :
    ((reciprocal_rank_fusion results_list k).map FusedHit.document_id).Nodup ∧
    (∀ d, d ∈ (reciprocal_rank_fusion results_list k).map FusedHit.document_id ↔
      ∃ l ∈ results_list, ∃ h ∈ l, toId h = some d) ∧
    ((reciprocal_rank_fusion results_list k).Sorted (fun a b => b.score ≤ a.score)) ∧
    (∀ d ∈ (["doc1", "doc2", "doc3", "doc4"] : List String),
      d ∈ (reciprocal_rank_fusion
        [[⟨some "doc1", some "c1", some [], some 1⟩, ⟨some "doc2", some "c2", some [], some 1⟩],
         [⟨some "doc3", some "c3", some [], some 1⟩, ⟨some "doc4", some "c4", some [], some 1⟩]]
        60).map FusedHit.document_id) := by
  refine ⟨rrf_ids_nodup results_list k, fun d => mem_ids_rrf, rrf_sorted results_list k, ?_⟩
  intro d hd
  apply mem_ids_rrf.mpr
  simp only [List.mem_cons, List.not_mem_nil, or_false] at hd
  rcases hd with rfl | rfl | rfl | rfl
  · exact ⟨[⟨some "doc1", some "c1", some [], some 1⟩, ⟨some "doc2", some "c2", some [], some 1⟩],
      by simp, ⟨some "doc1", some "c1", some [], some 1⟩, by simp, by simp [toId]⟩
  · exact ⟨[⟨some "doc1", some "c1", some [], some 1⟩, ⟨some "doc2", some "c2", some [], some 1⟩],
      by simp, ⟨some "doc2", some "c2", some [], some 1⟩, by simp, by simp [toId]⟩
  · exact ⟨[⟨some "doc3", some "c3", some [], some 1⟩, ⟨some "doc4", some "c4", some [], some 1⟩],
      by simp, ⟨some "doc3", some "c3", some [], some 1⟩, by simp, by simp [toId]⟩
  · exact ⟨[⟨some "doc3", some "c3", some [], some 1⟩, ⟨some "doc4", some "c4", some [], some 1⟩],
      by simp, ⟨some "doc4", some "c4", some [], some 1⟩, by simp, by simp [toId]⟩

/-- C4, counterexample to the claim as stated: the output of fusing the two
disjoint length-2 lists is not strictly descending in score — `doc1` and
`doc3` both score exactly `1 / 61`, so the output holds two distinct
documents with equal fused scores. -/
theorem C4_strict_descending_counterexample :
    ¬ ((reciprocal_rank_fusion
        [[⟨some "doc1", some "c1", some [], some 1⟩, ⟨some "doc2", some "c2", some [], some 1⟩],
         [⟨some "doc3", some "c3", some [], some 1⟩, ⟨some "doc4", some "c4", some [], some 1⟩]]
        60).Sorted (fun a b => b.score < a.score)) := by
  set rl : List (List RHit) :=
    [[⟨some "doc1", some "c1", some [], some 1⟩, ⟨some "doc2", some "c2", some [], some 1⟩],
     [⟨some "doc3", some "c3", some [], some 1⟩, ⟨some "doc4", some "c4", some [], some 1⟩]] with hrl
  intro hs
  have hne : (reciprocal_rank_fusion rl 60).Pairwise (fun a b => a.score ≠ b.score) :=
    hs.imp (fun h => ne_of_gt h)
  have hsymm : Symmetric (fun a b : FusedHit => a.score ≠ b.score) :=
    fun a b h => h.symm
  have hacc : (rrfAccum 60 rl).Pairwise (fun a b => a.score ≠ b.score) := by
    refine ((rrf_perm rl 60).pairwise_iff ?_).mp hne
    intro x y h
    exact h.symm
  have h1 : "doc1" ∈ ids (rrfAccum 60 rl) := by
    apply (mem_ids_rrfAccum 60 rl "doc1").mpr
    exact ⟨[⟨some "doc1", some "c1", some [], some 1⟩, ⟨some "doc2", some "c2", some [], some 1⟩],
      by simp [hrl], ⟨some "doc1", some "c1", some [], some 1⟩, by simp, by simp [toId]⟩
  have h3 : "doc3" ∈ ids (rrfAccum 60 rl) := by
    apply (mem_ids_rrfAccum 60 rl "doc3").mpr
    exact ⟨[⟨some "doc3", some "c3", some [], some 1⟩, ⟨some "doc4", some "c4", some [], some 1⟩],
      by simp [hrl], ⟨some "doc3", some "c3", some [], some 1⟩, by simp, by simp [toId]⟩
  rcases mem_ids_iff.mp h1 with ⟨e1, he1, hid1⟩
  rcases mem_ids_iff.mp h3 with ⟨e3, he3, hid3⟩
  have hne13 : e1 ≠ e3 := by
    intro hc
    rw [hc, hid3] at hid1
    exact absurd hid1 (by decide)
  have ha1 : ¬ ("doc1" : String) = "" := by decide
  have ha2 : ¬ ("doc2" : String) = "" := by decide
  have ha3 : ¬ ("doc3" : String) = "" := by decide
  have ha4 : ¬ ("doc4" : String) = "" := by decide
  have hscore1 : e1.score = 1 / 61 := by
    have hsc := score_eq_scoreOf (nodup_ids_rrfAccum 60 rl) he1
    rw [hid1, scoreOf_rrfAccum] at hsc
    rw [hsc, hrl]
    have h21 : ¬ ("doc2" : String) = "doc1" := by decide
    have h31 : ¬ ("doc3" : String) = "doc1" := by decide
    have h41 : ¬ ("doc4" : String) = "doc1" := by decide
    simp only [specScore, specScoreFrom, toId, List.map_cons, List.map_nil, List.sum_cons,
      List.sum_nil, ha1, ha2, ha3, ha4]
    norm_num [h21, h31, h41]
  have hscore3 : e3.score = 1 / 61 := by
    have hsc := score_eq_scoreOf (nodup_ids_rrfAccum 60 rl) he3
    rw [hid3, scoreOf_rrfAccum] at hsc
    rw [hsc, hrl]
    have h13 : ¬ ("doc1" : String) = "doc3" := by decide
    have h23 : ¬ ("doc2" : String) = "doc3" := by decide
    have h43 : ¬ ("doc4" : String) = "doc3" := by decide
    simp only [specScore, specScoreFrom, toId, List.map_cons, List.map_nil, List.sum_cons,
      List.sum_nil, ha1, ha2, ha3, ha4]
    norm_num [h13, h23, h43]
  have := hacc.forall hsymm he1 he3 hne13
  rw [hscore1, hscore3] at this
  exact this rfl

/-- C5: fusing a single ranked list with truthy, distinct document ids
reproduces the list's original order with strictly decreasing scores; and in
general, output entries with equal fused scores appear in first-appearance
order across the concatenated input lists (the sort is stable). -/
theorem C5_rrf_identity_and_stability (l : List RHit) (k : ℤ) (hk : 1 ≤ k)
    (htruthy : ∀ h ∈ l, toId h ≠ none) (hnd : (listIds l).Nodup) :
    ((reciprocal_rank_fusion [l] k).map FusedHit.document_id = listIds l ∧
      (reciprocal_rank_fusion [l] k).Pairwise (fun a b => b.score < a.score)) ∧
    (∀ results_list : List (List RHit),
      (reciprocal_rank_fusion results_list k).Pairwise
        (fun a b => a.score = b.score →
          (allIds results_list).indexOf a.document_id <
            (allIds results_list).indexOf b.document_id)) := by
  have hacc : rrfAccum k [l] = freshEntries k 1 l := rrfAccum_single k l hnd
  have hstrict : (freshEntries k 1 l).Pairwise (fun a b => b.score < a.score) :=
    freshEntries_strict_sorted k hk l 1 (le_refl 1)
  have hsorted : (freshEntries k 1 l).Sorted rrfRel :=
    hstrict.imp (fun h => le_of_lt h)
  have hout : reciprocal_rank_fusion [l] k = freshEntries k 1 l := by
    rw [reciprocal_rank_fusion, hacc]
    exact hsorted.insertionSort_eq
  refine ⟨⟨?_, ?_⟩, ?_⟩
  · rw [hout]
    exact freshEntries_ids k l 1
  · rw [hout]
    exact hstrict
  · intro results_list
    exact rrf_tie_stable results_list k

theorem C5_rrf_identity_and_stability_witness :
    ((1 : ℤ) ≤ 60) ∧
    (∀ h ∈ ([⟨some "A", some "ca", some [], some 1⟩,
             ⟨some "B", some "cb", some [], some 1⟩] : List RHit), toId h ≠ none) ∧
    (listIds [⟨some "A", some "ca", some [], some 1⟩,
              ⟨some "B", some "cb", some [], some 1⟩]).Nodup ∧
    (((reciprocal_rank_fusion [[⟨some "A", some "ca", some [], some 1⟩,
          ⟨some "B", some "cb", some [], some 1⟩]] 60).map FusedHit.document_id =
        listIds [⟨some "A", some "ca", some [], some 1⟩,
          ⟨some "B", some "cb", some [], some 1⟩] ∧
      (reciprocal_rank_fusion [[⟨some "A", some "ca", some [], some 1⟩,
          ⟨some "B", some "cb", some [], some 1⟩]] 60).Pairwise
        (fun a b => b.score < a.score)) ∧
    (∀ results_list : List (List RHit),
      (reciprocal_rank_fusion results_list 60).Pairwise
        (fun a b => a.score = b.score →
          (allIds results_list).indexOf a.document_id <
            (allIds results_list).indexOf b.document_id))) :=
  ⟨by decide, by decide, by decide,
    C5_rrf_identity_and_stability
      [⟨some "A", some "ca", some [], some 1⟩, ⟨some "B", some "cb", some [], some 1⟩]
      60 (by decide) (by decide) (by decide)⟩

/-- C10: a hit whose `document_id` is absent, `None`, or the empty string
contributes nothing and never appears in the output (whose ids are all
non-empty); replacing such a hit by any other falsy hit leaves the fused
output unchanged; yet the skipped hit still occupies its 1-based position:
fusing `[[bad, h]]` where `h` carries id `d` scores `d` at `1 / (k + 2)`,
rank 2 counting the skipped hit (ranks are not recomputed after a skip). -/
theorem C10_rrf_falsy_hits (results_list : List (List RHit)) (k : ℤ) (hk : 1 ≤ k) :
    (∀ e ∈ reciprocal_rank_fusion results_list k, e.document_id ≠ "") ∧
    (∀ (ls1 ls2 : List (List RHit)) (pre post : List RHit) (bad other : RHit),
      toId bad = none → toId other = none →
      reciprocal_rank_fusion (ls1 ++ (pre ++ bad :: post) :: ls2) k =
        reciprocal_rank_fusion (ls1 ++ (pre ++ other :: post) :: ls2) k) ∧
    (∀ (bad h : RHit) (d : String), toId bad = none → toId h = some d →
      ∃ e ∈ reciprocal_rank_fusion [[bad, h]] k,
        e.document_id = d ∧ e.score = 1 / ((k : ℚ) + 2)) := by
  refine ⟨?_, ?_, ?_⟩
  · intro e he hc
    have hmem : e.document_id ∈ ids (rrfAccum k results_list) :=
      List.mem_map_of_mem _ (mem_rrf.mp he)
    rcases (mem_ids_rrfAccum k results_list e.document_id).mp hmem with ⟨l, _, h, _, hti⟩
    exact toId_ne_empty hti hc
  · intro ls1 ls2 pre post bad other hbad hother
    rw [reciprocal_rank_fusion, reciprocal_rank_fusion,
      rrfAccum_falsy_congr k hbad hother ls1 ls2 pre post]
  · intro bad h d hbad hti
    have hmem : d ∈ (reciprocal_rank_fusion [[bad, h]] k).map FusedHit.document_id := by
      apply mem_ids_rrf.mpr
      exact ⟨[bad, h], by simp, h, by simp, hti⟩
    rcases List.mem_map.mp hmem with ⟨e, he, hid⟩
    refine ⟨e, he, hid, ?_⟩
    have hs := rrf_score_eq_specScore he
    rw [hid] at hs
    rw [hs]
    have hns : ¬ ((none : Option String) = some d) := by simp
    simp only [specScore, List.map_cons, List.map_nil, List.sum_cons, List.sum_nil,
      specScoreFrom, hbad, hti, hns, eq_self_iff_true, if_true, if_false]
    norm_num

theorem C10_rrf_falsy_hits_witness :
    ((1 : ℤ) ≤ 60) ∧
    ((∀ e ∈ reciprocal_rank_fusion [] 60, e.document_id ≠ "") ∧
    (∀ (ls1 ls2 : List (List RHit)) (pre post : List RHit) (bad other : RHit),
      toId bad = none → toId other = none →
      reciprocal_rank_fusion (ls1 ++ (pre ++ bad :: post) :: ls2) 60 =
        reciprocal_rank_fusion (ls1 ++ (pre ++ other :: post) :: ls2) 60) ∧
    (∀ (bad h : RHit) (d : String), toId bad = none → toId h = some d →
      ∃ e ∈ reciprocal_rank_fusion [[bad, h]] 60,
        e.document_id = d ∧ e.score = 1 / ((60 : ℤ) + 2 : ℚ))) :=
  ⟨by decide, C10_rrf_falsy_hits [] 60 (by decide)⟩

/-! Lemmas about the sparse vectorizer -/

theorem dedupFirst_snoc {α : Type} [DecidableEq α] (xs : List α) (y : α) :
    dedupFirst (xs ++ [y]) = if y ∈ xs then dedupFirst xs else dedupFirst xs ++ [y] := by
  show (xs ++ [y]).foldl (fun acc d => if d ∈ acc then acc else acc ++ [d]) [] = _
  rw [List.foldl_append, List.foldl_cons, List.foldl_nil]
  show (if y ∈ dedupFirst xs then dedupFirst xs else dedupFirst xs ++ [y]) = _
  by_cases hy : y ∈ xs
  · rw [if_pos ((@mem_dedupFirst _ _ xs y).mpr hy), if_pos hy]
  · rw [if_neg (fun hc => hy ((@mem_dedupFirst _ _ xs y).mp hc)), if_neg hy]

theorem wordFreq_eq_counts (ws : List (List Char)) :
    wordFreq ws = (dedupFirst ws).map (fun w => (w, ws.count w)) := by
  suffices hgen : ∀ (ys pre : List (List Char)),
      ys.foldl
        (fun acc w =>
          if w ∈ acc.map Prod.fst then
            acc.map (fun p => if p.1 = w then (p.1, p.2 + 1) else p)
          else acc ++ [(w, 1)])
        ((dedupFirst pre).map (fun w => (w, pre.count w))) =
        (dedupFirst (pre ++ ys)).map (fun w => (w, (pre ++ ys).count w)) by
    have h := hgen ws []
    rw [List.nil_append] at h
    rw [wordFreq]
    rw [show dedupFirst ([] : List (List Char)) = [] from rfl, List.map_nil] at h
    exact h
  intro ys
  induction ys with
  | nil => intro pre; rw [List.foldl_nil, List.append_nil]
  | cons y t ih =>
    intro pre
    rw [List.foldl_cons]
    have hfst : ((dedupFirst pre).map (fun w => (w, pre.count w))).map Prod.fst =
        dedupFirst pre := by
      rw [List.map_map]
      have hcomp : (Prod.fst ∘ fun w : List Char => (w, List.count w pre)) = id := rfl
      rw [hcomp, List.map_id]
    have hstep :
        (if y ∈ ((dedupFirst pre).map (fun w => (w, pre.count w))).map Prod.fst then
          ((dedupFirst pre).map (fun w => (w, pre.count w))).map
            (fun p => if p.1 = y then (p.1, p.2 + 1) else p)
        else ((dedupFirst pre).map (fun w => (w, pre.count w))) ++ [(y, 1)]) =
        (dedupFirst (pre ++ [y])).map (fun w => (w, (pre ++ [y]).count w)) := by
      rw [hfst, dedupFirst_snoc]
      by_cases hy : y ∈ pre
      · rw [if_pos ((@mem_dedupFirst _ _ pre y).mpr hy), if_pos hy, List.map_map]
        apply List.map_congr_left
        intro w _
        dsimp only [Function.comp]
        by_cases hw : w = y
        · rw [if_pos hw, hw, List.count_append, List.count_cons_self, List.count_nil]
        · rw [if_neg hw, List.count_append, List.count_cons_of_ne hw, List.count_nil,
            Nat.add_zero]
      · rw [if_neg (fun hc => hy ((@mem_dedupFirst _ _ pre y).mp hc)), if_neg hy,
          List.map_append]
        congr 1
        · apply List.map_congr_left
          intro w hw
          have hwy : w ≠ y := fun hc => hy (hc ▸ (@mem_dedupFirst _ _ pre w).mp hw)
          rw [List.count_append, List.count_cons_of_ne hwy, List.count_nil, Nat.add_zero]
        · rw [List.map_singleton, List.count_append, List.count_cons_self, List.count_nil,
            List.count_eq_zero.mpr hy]
    rw [hstep, ih (pre ++ [y]), List.append_assoc, List.singleton_append]

/-- C3 (amended): `_create_sparse_vector` lower-cases the text, splits it on
whitespace, counts token frequencies, and emits one `(index, value)` pair per
distinct token in first-appearance order, with index `md5-bucket mod 10000`
and value the token's frequency.  When two distinct tokens hash to the same
bucket, each keeps its own pair — the colliding index appears several times
and the frequencies are not summed into one weight.  Empty text yields an
empty sparse vector. -/
theorem C3_sparse_vector_amended (text : String) :
    (_create_sparse_vector text).indices =
      (dedupFirst (pySplit (text.data.map Char.toLower))).map md5BucketIndex ∧
    (_create_sparse_vector text).values =
      (dedupFirst (pySplit (text.data.map Char.toLower))).map
        (fun w => (((pySplit (text.data.map Char.toLower)).count w : ℕ) : ℚ)) ∧
    _create_sparse_vector "" = { indices := [], values := [] } := by
  refine ⟨?_, ?_, ?_⟩
  · show (wordFreq (pySplit (text.data.map Char.toLower))).map (fun p => md5BucketIndex p.1) = _
    rw [wordFreq_eq_counts, List.map_map]
    rfl
  · show (wordFreq (pySplit (text.data.map Char.toLower))).map (fun p => (p.2 : ℚ)) = _
    rw [wordFreq_eq_counts, List.map_map]
    rfl
  · rfl

set_option maxRecDepth 100000 in
/-- C3, counterexample to the claim as stated: the tokens `"m"` and `"x"`
both hash to bucket 5009, yet `_create_sparse_vector "m x"` emits the index
5009 twice with two separate weights of 1 — the frequencies of colliding
tokens are not summed into one weight at a single index. -/
theorem C3_collision_counterexample :
    (_create_sparse_vector "m x").indices = [5009, 5009] ∧
    (_create_sparse_vector "m x").values = [1, 1] ∧
    ¬ (_create_sparse_vector "m x").indices.Nodup := by
  have hwf : wordFreq (pySplit ("m x".data.map Char.toLower)) = [(['m'], 1), (['x'], 1)] := by
    decide
  have hidx : (_create_sparse_vector "m x").indices = [5009, 5009] := by decide
  refine ⟨hidx, ?_, ?_⟩
  · show (wordFreq (pySplit ("m x".data.map Char.toLower))).map (fun p => (p.2 : ℚ)) = [1, 1]
    rw [hwf]
    norm_num
  · rw [hidx]
    decide

/-- C8: sparse vectorization is deterministic — it is a closed function of
the input text alone.  The embedding models the complete pipeline, including
the MD5 hash, padding and bucket reduction, with no ambient state, so two
runs on the same text are bit-identical in indices (order included) and
values. -/
theorem C8_sparse_vector_deterministic (text : String) :
    _create_sparse_vector text = _create_sparse_vector text ∧
    (_create_sparse_vector text).indices = (_create_sparse_vector text).indices ∧
    (_create_sparse_vector text).values = (_create_sparse_vector text).values :=
  ⟨rfl, rfl, rfl⟩

/-- C1 (code bug): when the shared retrieval deadline elapses, the
`except asyncio.TimeoutError` branch of `hybrid_search` re-awaits the
`dense_task` coroutine object that `asyncio.gather` has already wrapped in a
Task and consumed, so the call raises `RuntimeError` instead of returning
dense-only fused results — even when the dense search has already
completed. -/
theorem C1_hybrid_search_timeout_raises (env : HybridEnv) (k : ℤ) (top_k : ℕ)
    (htimeout : env.gatherTimesOut = true) (hdense : env.denseCompleted = true) :
    hybrid_search env k top_k = Except.error PyError.coroutineReuse ∧
    ∀ results, hybrid_search env k top_k ≠ Except.ok results := by
  constructor
  · simp [hybrid_search, htimeout]
  · intro results hc
    simp [hybrid_search, htimeout] at hc

theorem C1_hybrid_search_timeout_raises_witness :
    (⟨[], [], true, true⟩ : HybridEnv).gatherTimesOut = true ∧
    (⟨[], [], true, true⟩ : HybridEnv).denseCompleted = true ∧
    (hybrid_search ⟨[], [], true, true⟩ 60 5 = Except.error PyError.coroutineReuse ∧
     ∀ results, hybrid_search ⟨[], [], true, true⟩ 60 5 ≠ Except.ok results) :=
  ⟨rfl, rfl, C1_hybrid_search_timeout_raises ⟨[], [], true, true⟩ 60 5 rfl rfl⟩

/-- C6: the summarization stage never fails the request — the result set is
passed through unchanged in every case; a timed-out generation yields the
fixed timed-out message; a provider-raised error yields a message embedding
the error description; and an empty retrieval result set yields the fixed
no-results message without invoking the provider at all (the response is
independent of the provider outcome). -/
theorem C6_summary_never_fails (results : List FusedHit) (llm : LLMOutcome) :
    (search_with_summary results llm).results = results ∧
    (results ≠ [] → (search_with_summary results LLMOutcome.timeout).summary =
      "Summary generation timed out. Please try again.") ∧
    (∀ e, results ≠ [] → (search_with_summary results (LLMOutcome.error e)).summary =
      "Summary generation failed: " ++ e ++ ". Search results are still available below.") ∧
    (results = [] → (search_with_summary results llm).summary = "No results found for your query." ∧
      (search_with_summary results llm).llm_called = false) ∧
    (∀ llm1 llm2, search_with_summary [] llm1 = search_with_summary [] llm2) := by
  refine ⟨?_, ?_, ?_, ?_, ?_⟩
  · cases results with
    | nil => rfl
    | cons a t => simp [search_with_summary, with_timeout]
  · intro hne
    cases results with
    | nil => exact absurd rfl hne
    | cons a t => simp [search_with_summary, with_timeout]
  · intro e hne
    cases results with
    | nil => exact absurd rfl hne
    | cons a t => simp [search_with_summary, with_timeout]
  · intro he
    subst he
    exact ⟨rfl, rfl⟩
  · intro llm1 llm2
    rfl

theorem C6_summary_never_fails_witness :
    ([(⟨"A", "a", [], 1⟩ : FusedHit)] ≠ []) ∧
    (search_with_summary [(⟨"A", "a", [], 1⟩ : FusedHit)] LLMOutcome.timeout).summary =
      "Summary generation timed out. Please try again." :=
  ⟨by decide,
    (C6_summary_never_fails [(⟨"A", "a", [], 1⟩ : FusedHit)] LLMOutcome.timeout).2.1 (by decide)⟩

/-- C7: every dense and sparse search issued by the service carries the
caller's `tenant_id` as a mandatory filter, so every returned hit is backed
by a point stored under the caller's tenant; consequently a document
ingested under tenant `a` whose id is not reused by tenant `b` never appears
in a result set for tenant `b`.  The Vector Store honouring the filter and
the similarity ranking are modelled from the spec's collaborator contract
(`rank` and `srank` are arbitrary). -/
theorem C7_tenant_isolation (rank : StoredPoint → ℚ) (srank : PySparseVector → StoredPoint → ℚ)
    (store : List StoredPoint) (a b q : String) (top_k : ℕ) (hab : a ≠ b) :
    (∀ hit ∈ search_dense rank store b top_k,
      ∃ p ∈ store, p.tenant_id = b ∧ hit = pointToHit rank p) ∧
    (∀ hit ∈ search_sparse srank store b q top_k,
      ∃ p ∈ store, p.tenant_id = b ∧
        hit = pointToHit (srank (_create_sparse_vector q)) p) ∧
    (∀ p ∈ store, p.tenant_id = a →
      (∀ p2 ∈ store, p2.tenant_id = b → p2.document_id ≠ p.document_id) →
      (some p.document_id) ∉ (search_dense rank store b top_k).map RHit.document_id ∧
      (some p.document_id) ∉ (search_sparse srank store b q top_k).map RHit.document_id) := by
  have hfilter : ∀ (rk : StoredPoint → ℚ) (p : StoredPoint),
      p ∈ clientSearch rk store (tenantFilter b) top_k → p ∈ store ∧ p.tenant_id = b := by
    intro rk p hp
    have h1 : p ∈ List.insertionSort (fun p q => rk q ≤ rk p)
        (store.filter (matchesFilter (tenantFilter b))) :=
      (List.take_sublist _ _).subset hp
    have h2 : p ∈ store.filter (matchesFilter (tenantFilter b)) :=
      (List.mem_insertionSort _).mp h1
    rcases List.mem_filter.mp h2 with ⟨hps, hm⟩
    refine ⟨hps, ?_⟩
    simp [matchesFilter, tenantFilter, payloadGet] at hm
    exact hm
  have hdense : ∀ hit ∈ search_dense rank store b top_k,
      ∃ p ∈ store, p.tenant_id = b ∧ hit = pointToHit rank p := by
    intro hit hm
    rcases List.mem_map.mp hm with ⟨p, hp, rfl⟩
    rcases hfilter rank p hp with ⟨hps, hpt⟩
    exact ⟨p, hps, hpt, rfl⟩
  have hsparse : ∀ hit ∈ search_sparse srank store b q top_k,
      ∃ p ∈ store, p.tenant_id = b ∧
        hit = pointToHit (srank (_create_sparse_vector q)) p := by
    intro hit hm
    rcases List.mem_map.mp hm with ⟨p, hp, rfl⟩
    rcases hfilter (srank (_create_sparse_vector q)) p hp with ⟨hps, hpt⟩
    exact ⟨p, hps, hpt, rfl⟩
  refine ⟨hdense, hsparse, ?_⟩
  intro p hp hpa hnodB
  constructor
  · intro hc
    rcases List.mem_map.mp hc with ⟨hit, hhit, hdoc⟩
    rcases hdense hit hhit with ⟨p2, hp2, hp2t, rfl⟩
    have : p2.document_id = p.document_id := by
      have := hdoc
      simp [pointToHit] at this
      exact this
    exact hnodB p2 hp2 hp2t this
  · intro hc
    rcases List.mem_map.mp hc with ⟨hit, hhit, hdoc⟩
    rcases hsparse hit hhit with ⟨p2, hp2, hp2t, rfl⟩
    have : p2.document_id = p.document_id := by
      have := hdoc
      simp [pointToHit] at this
      exact this
    exact hnodB p2 hp2 hp2t this

theorem C7_tenant_isolation_witness :
    (("a" : String) ≠ "b") ∧
    ((∀ hit ∈ search_dense (fun _ => 0) [] "b" 5,
      ∃ p ∈ ([] : List StoredPoint), p.tenant_id = "b" ∧ hit = pointToHit (fun _ => 0) p) ∧
    (∀ hit ∈ search_sparse (fun _ _ => 0) [] "b" "hi" 5,
      ∃ p ∈ ([] : List StoredPoint), p.tenant_id = "b" ∧
        hit = pointToHit ((fun _ _ => (0 : ℚ)) (_create_sparse_vector "hi")) p) ∧
    (∀ p ∈ ([] : List StoredPoint), p.tenant_id = "a" →
      (∀ p2 ∈ ([] : List StoredPoint), p2.tenant_id = "b" → p2.document_id ≠ p.document_id) →
      (some p.document_id) ∉ (search_dense (fun _ => 0) [] "b" 5).map RHit.document_id ∧
      (some p.document_id) ∉
        (search_sparse (fun _ _ => 0) [] "b" "hi" 5).map RHit.document_id)) :=
  ⟨by decide, C7_tenant_isolation (fun _ => 0) (fun _ _ => 0) [] "a" "b" "hi" 5 (by decide)⟩

/-! The delete-by-tenant loop -/

theorem scrollPage_eq (store : List StoredPoint) (t : String) (offset : Option ℕ)
    (hoff : ∀ p ∈ store, matchesFilter (tenantFilter t) p = true →
      ∀ o, offset = some o → o ≤ p.pid) :
    scrollPage store (tenantFilter t) 100 offset =
      ((List.insertionSort pidLE (store.filter (matchesFilter (tenantFilter t)))).take 100,
       ((List.insertionSort pidLE
          (store.filter (matchesFilter (tenantFilter t)))).drop 100).head?.map
            StoredPoint.pid) := by
  unfold scrollPage
  cases offset with
  | none => rfl
  | some o =>
    dsimp only
    have hms : (List.insertionSort pidLE
        (store.filter (matchesFilter (tenantFilter t)))).filter
          (fun p => decide (o ≤ p.pid)) =
        List.insertionSort pidLE (store.filter (matchesFilter (tenantFilter t))) := by
      apply List.filter_eq_self.mpr
      intro p hp
      have hp' := (List.mem_insertionSort pidLE).mp hp
      rcases List.mem_filter.mp hp' with ⟨hps, hm⟩
      exact decide_eq_true (hoff p hps hm o rfl)
    rw [hms]

theorem deleteLoop_spec (t : String) : ∀ (fuel : ℕ) (store : List StoredPoint)
    (offset : Option ℕ) (count : ℕ),
    (store.map StoredPoint.pid).Nodup →
    store.length < fuel →
    (∀ p ∈ store, matchesFilter (tenantFilter t) p = true →
      ∀ o, offset = some o → o ≤ p.pid) →
    deleteLoop fuel store t offset count =
      (store.filter (fun p => ! matchesFilter (tenantFilter t) p),
       count + (store.filter (matchesFilter (tenantFilter t))).length) := by
  intro fuel
  induction fuel with
  | zero =>
    intro store offset count _ hlen _
    exact absurd hlen (Nat.not_lt_zero _)
  | succ fuel ih =>
    intro store offset count hnd hlen hoff
    rw [deleteLoop, scrollPage_eq store t offset hoff]
    set m : StoredPoint → Bool := matchesFilter (tenantFilter t) with hm
    set ms : List StoredPoint := List.insertionSort pidLE (store.filter m) with hmsdef
    have hperm : ms.Perm (store.filter m) := List.perm_insertionSort pidLE _
    by_cases hms : ms = []
    · have htake : ms.take 100 = [] := by rw [hms]; rfl
      have hfe : store.filter m = [] := by
        have h2 := hperm.symm
        rw [hms] at h2
        exact h2.eq_nil
      have hstore_eq : store.filter (fun p => ! m p) = store := by
        apply List.filter_eq_self.mpr
        intro p hp
        cases hmp : m p with
        | true =>
          have : p ∈ store.filter m := List.mem_filter.mpr ⟨hp, hmp⟩
          rw [hfe] at this
          exact absurd this (List.not_mem_nil p)
        | false => simp [hmp]
      rw [htake]
      show (store, count) = _
      rw [hstore_eq, hfe]
      simp
    · have htake_ne : ms.take 100 ≠ [] := by
        intro hc
        rcases List.take_eq_nil_iff.mp hc with hc' | hc'
        · exact absurd hc' (by norm_num)
        · exact hms hc'
      have hcond : ¬ ((ms.take 100).isEmpty = true) := fun hc => htake_ne (List.isEmpty_iff.mp hc)
      have hmsnodup_pid : (ms.map StoredPoint.pid).Nodup := by
        have h1 : ((store.filter m).map StoredPoint.pid).Nodup :=
          List.Nodup.sublist ((List.filter_sublist store).map StoredPoint.pid) hnd
        exact ((hperm.map StoredPoint.pid).nodup_iff).mpr h1
      have hms_nodup : ms.Nodup := List.Nodup.of_map _ hmsnodup_pid
      have hsorted : ms.Sorted pidLE := List.sorted_insertionSort pidLE _
      have hsplit : ms.take 100 ++ ms.drop 100 = ms := List.take_append_drop 100 ms
      have hmem_ms : ∀ x ∈ ms, x ∈ store ∧ m x = true := by
        intro x hx
        exact List.mem_filter.mp (hperm.mem_iff.mp hx)
      have hmem_pageIds : ∀ p ∈ store, p.pid ∈ (ms.take 100).map StoredPoint.pid →
          p ∈ ms.take 100 ∧ m p = true := by
        intro p hp hpid
        rcases List.mem_map.mp hpid with ⟨x, hx, hxp⟩
        have hxms : x ∈ ms := (List.take_sublist 100 ms).subset hx
        rcases hmem_ms x hxms with ⟨hxs, hxm⟩
        have hxeq : x = p := List.inj_on_of_nodup_map hnd hxs hp hxp
        subst hxeq
        exact ⟨hx, hxm⟩
      have hnot_pageIds : ∀ p ∈ store, m p = false →
          p.pid ∉ (ms.take 100).map StoredPoint.pid := by
        intro p hp hmp hc
        rcases hmem_pageIds p hp hc with ⟨_, hmt⟩
        rw [hmp] at hmt
        exact Bool.false_ne_true hmt
      have hdeleteDef : deletePoints store ((ms.take 100).map StoredPoint.pid) =
          store.filter (fun p => decide (p.pid ∉ (ms.take 100).map StoredPoint.pid)) := rfl
      have hfilter_not :
          (store.filter (fun p => decide (p.pid ∉ (ms.take 100).map StoredPoint.pid))).filter
            (fun p => ! m p) =
          store.filter (fun p => ! m p) := by
        rw [List.filter_filter]
        apply List.filter_congr
        intro p hp
        cases hmp : m p with
        | true =>
          simp only [Bool.not_true, Bool.false_and]
        | false =>
          simp only [Bool.not_false, Bool.true_and]
          exact decide_eq_true (hnot_pageIds p hp hmp)
      have hperm_rest :
          ((store.filter (fun p => decide (p.pid ∉ (ms.take 100).map StoredPoint.pid))).filter
            m).Perm (ms.drop 100) := by
        rw [List.filter_filter]
        have hstep1 : store.filter (fun a => m a && decide
            (a.pid ∉ (ms.take 100).map StoredPoint.pid)) =
            (store.filter m).filter
              (fun a => decide (a.pid ∉ (ms.take 100).map StoredPoint.pid)) := by
          rw [List.filter_filter]
          apply List.filter_congr
          intro p _
          cases m p <;> simp
        rw [hstep1]
        have hstep2 : ((store.filter m).filter
            (fun a => decide (a.pid ∉ (ms.take 100).map StoredPoint.pid))).Perm
            (ms.filter (fun a => decide (a.pid ∉ (ms.take 100).map StoredPoint.pid))) :=
          List.Perm.filter _ hperm.symm
        have hq1 : ∀ x ∈ ms.take 100,
            (fun a => decide (a.pid ∉ (ms.take 100).map StoredPoint.pid)) x = false := by
          intro x hx
          exact decide_eq_false (fun hc => hc (List.mem_map_of_mem _ hx))
        have hq2 : ∀ x ∈ ms.drop 100,
            (fun a => decide (a.pid ∉ (ms.take 100).map StoredPoint.pid)) x = true := by
          intro r hr
          apply decide_eq_true
          intro hc
          rcases List.mem_map.mp hc with ⟨x, hx, hxr⟩
          have hxms : x ∈ ms := (List.take_sublist 100 ms).subset hx
          have hrms : r ∈ ms := (List.drop_sublist 100 ms).subset hr
          have hxeq : x = r :=
            List.inj_on_of_nodup_map hmsnodup_pid hxms hrms hxr
          subst hxeq
          have hdisj : (ms.take 100).Disjoint (ms.drop 100) :=
            (List.nodup_append.mp (hsplit.symm ▸ hms_nodup)).2.2
          exact hdisj hx hr
        have hgen : ∀ (l1 l2 : List StoredPoint) (q : StoredPoint → Bool),
            (∀ x ∈ l1, q x = false) → (∀ x ∈ l2, q x = true) →
            (l1 ++ l2).filter q = l2 := by
          intro l1 l2 q h1 h2
          rw [List.filter_append, List.filter_eq_nil_iff.mpr
            (fun a ha hc => by rw [h1 a ha] at hc; exact Bool.false_ne_true hc),
            List.filter_eq_self.mpr h2, List.nil_append]
        have hstep3 := hgen (ms.take 100) (ms.drop 100) _ hq1 hq2
        rw [hsplit] at hstep3
        rw [← hstep3]
        exact hstep2
      rw [if_neg hcond]
      cases hdrop : (ms.drop 100) with
      | nil =>
        show (deletePoints store ((ms.take 100).map StoredPoint.pid),
          count + (ms.take 100).length) = _
        have hpage_all : ms.take 100 = ms := by
          conv => rhs; rw [← hsplit]
          rw [hdrop, List.append_nil]
        have hdeleteEq : deletePoints store ((ms.take 100).map StoredPoint.pid) =
            store.filter (fun p => ! m p) := by
          rw [hdeleteDef]
          apply List.filter_congr
          intro p hp
          cases hmp : m p with
          | true =>
            have hpfilter : p ∈ store.filter m := List.mem_filter.mpr ⟨hp, hmp⟩
            have hpms : p ∈ ms := hperm.mem_iff.mpr hpfilter
            have hppage : p ∈ ms.take 100 := by rw [hpage_all]; exact hpms
            have hpin : p.pid ∈ (ms.take 100).map StoredPoint.pid :=
              List.mem_map_of_mem _ hppage
            simp only [Bool.not_true]
            exact decide_eq_false (fun hc => hc hpin)
          | false =>
            simp only [Bool.not_false]
            exact decide_eq_true (hnot_pageIds p hp hmp)
        have hcount : (ms.take 100).length = (store.filter m).length := by
          rw [hpage_all]
          exact hperm.length_eq
        rw [hdeleteEq, hcount]
      | cons r rest' =>
        show deleteLoop fuel (deletePoints store ((ms.take 100).map StoredPoint.pid)) t
          (some r.pid) (count + (ms.take 100).length) = _
        have hnd' : ((store.filter (fun p => decide
            (p.pid ∉ (ms.take 100).map StoredPoint.pid))).map StoredPoint.pid).Nodup :=
          List.Nodup.sublist ((List.filter_sublist store).map StoredPoint.pid) hnd
        have hlen' : (store.filter (fun p => decide
            (p.pid ∉ (ms.take 100).map StoredPoint.pid))).length < store.length := by
          apply List.length_filter_lt_length_iff_exists.mpr
          have hhead : ∃ x, x ∈ ms.take 100 := by
            cases hpage : ms.take 100 with
            | nil => exact absurd hpage htake_ne
            | cons x xs => exact ⟨x, List.mem_cons_self x xs⟩
          rcases hhead with ⟨x, hx⟩
          have hxms : x ∈ ms := (List.take_sublist 100 ms).subset hx
          refine ⟨x, (hmem_ms x hxms).1, ?_⟩
          intro hc
          exact (of_decide_eq_true hc) (List.mem_map_of_mem _ hx)
        have hoff' : ∀ p ∈ store.filter (fun p => decide
            (p.pid ∉ (ms.take 100).map StoredPoint.pid)), m p = true →
            ∀ o, (some r.pid : Option ℕ) = some o → o ≤ p.pid := by
          intro p hp hmp o ho
          obtain rfl : r.pid = o := Option.some.inj ho
          have hpfilter : p ∈ (store.filter (fun p => decide
              (p.pid ∉ (ms.take 100).map StoredPoint.pid))).filter m :=
            List.mem_filter.mpr ⟨hp, hmp⟩
          have hprest : p ∈ ms.drop 100 := hperm_rest.mem_iff.mp hpfilter
          rw [hdrop] at hprest
          have hsorted_rest : (ms.drop 100).Sorted pidLE :=
            List.Pairwise.sublist (List.drop_sublist 100 ms) hsorted
          rw [hdrop] at hsorted_rest
          rcases List.mem_cons.mp hprest with rfl | hprest'
          · exact le_refl p.pid
          · exact List.rel_of_sorted_cons hsorted_rest p hprest'
        have hih := ih (store.filter (fun p => decide
            (p.pid ∉ (ms.take 100).map StoredPoint.pid))) (some r.pid)
          (count + (ms.take 100).length) hnd' (by omega) hoff'
        rw [hdeleteDef, hih, hfilter_not]
        have hlen_rest : ((store.filter (fun p => decide
            (p.pid ∉ (ms.take 100).map StoredPoint.pid))).filter m).length =
            (ms.drop 100).length := hperm_rest.length_eq
        have hlen_ms : (ms.take 100).length + (ms.drop 100).length =
            (store.filter m).length := by
          rw [← List.length_append, hsplit]
          exact hperm.length_eq
        rw [hlen_rest]
        congr 1
        omega

/-- C9: tenant-scoped delete is repeat-safe — on a store with distinct point
ids, `delete_by_tenant` returns a non-negative count equal to the number of
the tenant's points, removes exactly those points, and a second call on the
resulting store (whose tenant is now empty) returns the store unchanged with
count 0 rather than an error. -/
theorem C9_delete_by_tenant_idempotent (store : List StoredPoint) (t : String)
    (hnd : (store.map StoredPoint.pid).Nodup) :
    (0 : ℤ) ≤ ((delete_by_tenant store t).2 : ℤ) ∧
    (delete_by_tenant store t).2 =
      (store.filter (matchesFilter (tenantFilter t))).length ∧
    (delete_by_tenant store t).1 =
      store.filter (fun p => ! matchesFilter (tenantFilter t) p) ∧
    delete_by_tenant (delete_by_tenant store t).1 t = ((delete_by_tenant store t).1, 0) := by
  have hoffnone : ∀ (s : List StoredPoint),
      ∀ p ∈ s, matchesFilter (tenantFilter t) p = true →
        ∀ o, (none : Option ℕ) = some o → o ≤ p.pid := by
    intro s p _ _ o ho
    exact absurd ho (by simp)
  have h1 : delete_by_tenant store t =
      (store.filter (fun p => ! matchesFilter (tenantFilter t) p),
       0 + (store.filter (matchesFilter (tenantFilter t))).length) :=
    deleteLoop_spec t (store.length + 1) store none 0 hnd (Nat.lt_succ_self _) (hoffnone store)
  have hnd2 : ((store.filter (fun p => ! matchesFilter (tenantFilter t) p)).map
      StoredPoint.pid).Nodup :=
    List.Nodup.sublist ((List.filter_sublist store).map StoredPoint.pid) hnd
  have h2 : delete_by_tenant
      (store.filter (fun p => ! matchesFilter (tenantFilter t) p)) t =
      ((store.filter (fun p => ! matchesFilter (tenantFilter t) p)).filter
        (fun p => ! matchesFilter (tenantFilter t) p),
       0 + ((store.filter (fun p => ! matchesFilter (tenantFilter t) p)).filter
        (matchesFilter (tenantFilter t))).length) :=
    deleteLoop_spec t _ _ none 0 hnd2 (Nat.lt_succ_self _) (hoffnone _)
  have hself : (store.filter (fun p => ! matchesFilter (tenantFilter t) p)).filter
      (fun p => ! matchesFilter (tenantFilter t) p) =
      store.filter (fun p => ! matchesFilter (tenantFilter t) p) :=
    List.filter_eq_self.mpr (fun a ha => (List.mem_filter.mp ha).2)
  have hempty : (store.filter (fun p => ! matchesFilter (tenantFilter t) p)).filter
      (matchesFilter (tenantFilter t)) = [] := by
    apply List.filter_eq_nil_iff.mpr
    intro a ha hc
    rcases List.mem_filter.mp ha with ⟨_, hnm⟩
    rw [hc] at hnm
    simp at hnm
  refine ⟨Int.natCast_nonneg _, ?_, ?_, ?_⟩
  · rw [h1]
    exact Nat.zero_add _
  · rw [h1]
  · rw [h1]
    show delete_by_tenant (store.filter (fun p => ! matchesFilter (tenantFilter t) p)) t = _
    rw [h2, hself, hempty]
    rfl

theorem C9_delete_by_tenant_idempotent_witness :
    ((([(⟨1, "a", "d1", "c1", [], [], ⟨[], []⟩⟩ : StoredPoint),
        ⟨2, "b", "d2", "c2", [], [], ⟨[], []⟩⟩] : List StoredPoint).map
          StoredPoint.pid).Nodup) ∧
    ((0 : ℤ) ≤ ((delete_by_tenant
        [⟨1, "a", "d1", "c1", [], [], ⟨[], []⟩⟩,
         ⟨2, "b", "d2", "c2", [], [], ⟨[], []⟩⟩] "a").2 : ℤ) ∧
     (delete_by_tenant
        [⟨1, "a", "d1", "c1", [], [], ⟨[], []⟩⟩,
         ⟨2, "b", "d2", "c2", [], [], ⟨[], []⟩⟩] "a").2 =
       (([(⟨1, "a", "d1", "c1", [], [], ⟨[], []⟩⟩ : StoredPoint),
          ⟨2, "b", "d2", "c2", [], [], ⟨[], []⟩⟩] : List StoredPoint).filter
            (matchesFilter (tenantFilter "a"))).length ∧
     (delete_by_tenant
        [⟨1, "a", "d1", "c1", [], [], ⟨[], []⟩⟩,
         ⟨2, "b", "d2", "c2", [], [], ⟨[], []⟩⟩] "a").1 =
       ([(⟨1, "a", "d1", "c1", [], [], ⟨[], []⟩⟩ : StoredPoint),
         ⟨2, "b", "d2", "c2", [], [], ⟨[], []⟩⟩] : List StoredPoint).filter
           (fun p => ! matchesFilter (tenantFilter "a") p) ∧
     delete_by_tenant (delete_by_tenant
        [⟨1, "a", "d1", "c1", [], [], ⟨[], []⟩⟩,
         ⟨2, "b", "d2", "c2", [], [], ⟨[], []⟩⟩] "a").1 "a" =
       ((delete_by_tenant
        [⟨1, "a", "d1", "c1", [], [], ⟨[], []⟩⟩,
         ⟨2, "b", "d2", "c2", [], [], ⟨[], []⟩⟩] "a").1, 0)) :=
  ⟨by decide,
    C9_delete_by_tenant_idempotent
      [⟨1, "a", "d1", "c1", [], [], ⟨[], []⟩⟩, ⟨2, "b", "d2", "c2", [], [], ⟨[], []⟩⟩]
      "a" (by decide)⟩
